import Mathlib

/-!
Shallow embedding of `github/localrepo.go` (package `github` of hub).

The file embeds the repository-resolution engine of `localrepo.go`:
`loadRemotes`, `RemoteByName`, `remotesForPublish`, `CurrentBranch`,
`MasterBranch`, `RemoteBranchAndProject`, `MainProject`, `CurrentProject`
and `UpstreamProject`.

Conventions of the embedding.

* A Go slice `[]Remote` is an `Option (List Remote)`: `none` is the `nil`
  slice, `some xs` a non-nil slice with elements `xs` (possibly empty).
* A Go pointer result is an `Option`; a Go `error` result is an
  `Option Error` (`none` is `nil`).  Functions with several named results
  return all of them, as the Go code does, also on the error paths.
* Errors are their messages.
* The receiver `*GitHubRepo` is mutated by `loadRemotes`; every method takes
  the receiver state and returns the new one.
* Everything `localrepo.go` calls but does not define (package `git`, the
  `Remotes` enumeration, the methods of `Remote` and `Branch`) is a field of
  `Env`.  The iteration order of a Go map is unspecified; it is a field of
  `Env` as well.
-/

namespace Hub

/-- Go `error` values, identified with their message. -/
abbrev Error := String

/-- Go `Project` value: an owner/name/host identity. -/
structure Project where
  Name : String
  Owner : String
  Host : String
deriving DecidableEq, Repr

/-- Go `Remote` value: a name and the locator its project is parsed from. -/
structure Remote where
  Name : String
  URL : String
deriving DecidableEq, Repr

/-- Go `Branch` value: `Branch{name}`, a fully-qualified ref string. -/
structure Branch where
  Name : String
deriving DecidableEq, Repr

/-- Go `map[string]Remote`, as the list of its entries; keys are distinct. -/
abbrev RemoteMap := List (String × Remote)

/-- Map read `v, ok := m[k]`. -/
def RemoteMap.get (m : RemoteMap) (k : String) : Option Remote :=
  List.lookup k m

/-- Map write `m[k] = v`: overwrites the entry of an existing key. -/
def RemoteMap.set : RemoteMap → String → Remote → RemoteMap
  | [], k, v => [(k, v)]
  | (k', v') :: rest, k, v =>
    if k' = k then (k, v) :: rest else (k', v') :: RemoteMap.set rest k v

/-- Map removal `delete(m, k)`. -/
def RemoteMap.delete (m : RemoteMap) (k : String) : RemoteMap :=
  m.filter (fun e => !(e.1 == k))

/--
Collaborators of `localrepo.go` that are defined outside it.
Modelled from the spec: each fallible collaborator either yields its value
or fails with an error, in which case the Go zero value accompanies the
error.

* `Remotes k`: the answer of the package function `Remotes()` to its
  `k`-th call (counted from `0`): an error, or a slice (`none` is `nil`).
* `Project`: `remote.Project()`.
* `Head`: `git.Head()`.
* `BranchAtRef`: `git.BranchAtRef(paths...)`.
* `Config`: `git.Config(name)`.
* `HasFile`: `git.HasFile(segments...)`.
* `ShortName`, `IsRemote`, `RemoteName`, `Upstream`: the methods of `Branch`.
* `mapRange`: the order in which `for ... range m` visits the entries of a map.
-/
structure Env where
  Remotes : Nat → Except Error (Option (List Remote))
  Project : Remote → Except Error Project
  Head : Except Error String
  BranchAtRef : List String → Except Error String
  Config : String → Except Error String
  HasFile : List String → Bool
  ShortName : Branch → String
  IsRemote : Branch → Bool
  RemoteName : Branch → String
  Upstream : Branch → Except Error Branch
  mapRange : RemoteMap → RemoteMap

/-- A map iteration visits every entry of the map exactly once. -/
def Env.RangeVisitsAll (g : Env) : Prop :=
  ∀ m : RemoteMap, (g.mapRange m).Perm m

/-- Go pair `(value, err)` of a fallible collaborator returning a pointer. -/
def goPair {α : Type} : Except Error α → Option α × Option Error
  | .ok v => (some v, none)
  | .error e => (none, some e)

/-- Go string result of a collaborator whose error is discarded. -/
def goString : Except Error String → String
  | .ok v => v
  | .error _ => ""

/--
Receiver state `GitHubRepo{remotes}`.  The field `queries` is not part of
the Go struct: it counts the calls of `Remotes()` made so far.
-/
structure GitHubRepo where
  remotes : Option (List Remote)
  queries : Nat
deriving DecidableEq, Repr

/-- `LocalRepo()`: a fresh session, `&GitHubRepo{}`. -/
def LocalRepo : GitHubRepo := ⟨none, 0⟩

/-- Elements a `range` loop over the slice `r.remotes` visits. -/
def GitHubRepo.catalog (r : GitHubRepo) : List Remote :=
  r.remotes.getD []

/-- `func (r *GitHubRepo) loadRemotes() error` (lines 17-29). -/
def loadRemotes (g : Env) (r : GitHubRepo) : Option Error × GitHubRepo :=
  match r.remotes with
  | some _ => (none, r)
  | none =>
    match g.Remotes r.queries with
    | .error err => (some err, { r with queries := r.queries + 1 })
    | .ok remotes => (none, { remotes := remotes, queries := r.queries + 1 })

/-- `func (r *GitHubRepo) RemoteByName(name string) (*Remote, error)` (lines 31-41). -/
def RemoteByName (g : Env) (name : String) (r : GitHubRepo) :
    (Option Remote × Option Error) × GitHubRepo :=
  let r1 := (loadRemotes g r).2
  match r1.catalog.find? (fun remote => remote.Name == name) with
  | some remote => ((some remote, none), r1)
  | none => ((none, some ("No git remote with name " ++ name)), r1)

/-- The slice literal `names` of `remotesForPublish` (line 56). -/
def names : List String := ["origin", "github", "upstream"]

/-- Body of the loop of lines 48-53: record an owner-matched remote. -/
def ownerStep (g : Env) (owner : String) (m : RemoteMap) (remote : Remote) : RemoteMap :=
  match g.Project remote with
  | .ok p => if p.Owner = owner then m.set remote.Name remote else m
  | .error _ => m

/-- Body of the loop of lines 57-66: resolve a canonical name not yet in the map. -/
def lookupStep (g : Env) (acc : RemoteMap × GitHubRepo) (name : String) :
    RemoteMap × GitHubRepo :=
  match acc.1.get name with
  | some _ => acc
  | none =>
    match RemoteByName g name acc.2 with
    | ((some remote, none), r1) => (acc.1.set remote.Name remote, r1)
    | (_, r1) => (acc.1, r1)

/-- Body of the loop of lines 68-73: move a canonical entry to the output. -/
def takeStep (acc : List Remote × RemoteMap) (name : String) : List Remote × RemoteMap :=
  match acc.2.get name with
  | some remote => (acc.1 ++ [remote], acc.2.delete name)
  | none => acc

/-- `func (r *GitHubRepo) remotesForPublish(owner string) (remotes []Remote)` (lines 43-81). -/
def remotesForPublish (g : Env) (owner : String) (r : GitHubRepo) :
    List Remote × GitHubRepo :=
  let r0 := (loadRemotes g r).2
  let m0 : RemoteMap :=
    if owner ≠ "" then r0.catalog.foldl (ownerStep g owner) [] else []
  let (m1, r1) := names.foldl (lookupStep g) (m0, r0)
  let (out, m2) := names.foldl takeStep ([], m1)
  ((g.mapRange m2).foldl (fun remotes e => e.2 :: remotes) out, r1)

/-- `func (r *GitHubRepo) CurrentBranch() (branch *Branch, err error)` (lines 83-92). -/
def CurrentBranch (g : Env) : Option Branch × Option Error :=
  match g.Head with
  | .error _ => (none, some "Aborted: not currently on any branch.")
  | .ok head => (some ⟨head⟩, none)

/-- `func (r *GitHubRepo) MasterBranch() (branch *Branch)` (lines 94-108). -/
def MasterBranch (g : Env) (r : GitHubRepo) : Branch × GitHubRepo :=
  let (res, r1) := RemoteByName g "origin" r
  let name : String :=
    match res with
    | (some origin, none) => goString (g.BranchAtRef ["refs", "remotes", origin.Name, "HEAD"])
    | _ => ""
  let name := if name = "" then "refs/heads/master" else name
  (⟨name⟩, r1)

/-- `func (r *GitHubRepo) MainProject() (project *Project, err error)` (lines 152-165). -/
def MainProject (g : Env) (r : GitHubRepo) :
    (Option Project × Option Error) × GitHubRepo :=
  match RemoteByName g "origin" r with
  | ((some origin, none), r1) =>
    match goPair (g.Project origin) with
    | (project, some _) =>
      ((project, some "Aborted: the origin remote doesn't point to a GitHub repository."), r1)
    | (project, none) => ((project, none), r1)
  | (_, r1) =>
    ((none, some "Aborted: the origin remote doesn't point to a GitHub repository."), r1)

/-- `func (r *GitHubRepo) UpstreamProject() (project *Project, err error)` (lines 176-195). -/
def UpstreamProject (g : Env) (r : GitHubRepo) :
    (Option Project × Option Error) × GitHubRepo :=
  match CurrentBranch g with
  | (some currentBranch, none) =>
    match goPair (g.Upstream currentBranch) with
    | (some upstream, none) =>
      match RemoteByName g (g.RemoteName upstream) r with
      | ((some remote, none), r1) => (goPair (g.Project remote), r1)
      | ((_, err), r1) => ((none, err), r1)
    | (_, err) => ((none, err), r)
  | (_, err) => ((none, err), r)

/-- `func (r *GitHubRepo) CurrentProject() (project *Project, err error)` (lines 167-174). -/
def CurrentProject (g : Env) (r : GitHubRepo) :
    (Option Project × Option Error) × GitHubRepo :=
  match UpstreamProject g r with
  | ((project, none), r1) => ((project, none), r1)
  | ((_, some _), r1) => MainProject g r1

/-- The loop of lines 130-136: the first candidate whose tracking ref exists wins. -/
def scanRemotes (g : Env) (shortName : String) : List Remote → Branch → Branch
  | [], branch => branch
  | remote :: rest, branch =>
    if g.HasFile ["refs", "remotes", remote.Name, shortName] then
      ⟨"refs/remotes/" ++ remote.Name ++ "/" ++ shortName⟩
    else scanRemotes g shortName rest branch

/--
Lines 121-137 of `RemoteBranchAndProject`: the push-default step, run on the
current branch.  Returns the new values of `branch` and `err`.
-/
def pushDefaultStep (g : Env) (owner : String) (branch : Branch) (r : GitHubRepo) :
    (Option Branch × Option Error) × GitHubRepo :=
  let pushDefault := goString (g.Config "push.default")
  if pushDefault = "upstream" ∨ pushDefault = "tracking" then
    (goPair (g.Upstream branch), r)
  else
    let shortName := g.ShortName branch
    let (remotes, r1) := remotesForPublish g owner r
    ((some (scanRemotes g shortName remotes branch), none), r1)

/--
Lines 139-149 of `RemoteBranchAndProject`: the project override, run on the
branch of the push-default step and the project of `MainProject`.
-/
def overrideStep (g : Env) (branch : Branch) (project : Option Project) (r : GitHubRepo) :
    (Option Branch × Option Project × Option Error) × GitHubRepo :=
  if g.IsRemote branch then
    match RemoteByName g (g.RemoteName branch) r with
    | ((some remote, none), r1) =>
      let (project1, err) := goPair (g.Project remote)
      ((some branch, project1, err), r1)
    | (_, r1) => ((some branch, project, none), r1)
  else ((some branch, project, none), r)

/--
`func (r *GitHubRepo) RemoteBranchAndProject(owner string)
(branch *Branch, project *Project, err error)` (lines 110-150).
-/
def RemoteBranchAndProject (g : Env) (owner : String) (r : GitHubRepo) :
    (Option Branch × Option Project × Option Error) × GitHubRepo :=
  match MainProject g r with
  | ((project, none), r1) =>
    match CurrentBranch g with
    | (some branch, none) =>
      match pushDefaultStep g owner branch r1 with
      | ((some branch1, none), r2) => overrideStep g branch1 project r2
      | ((branch1, err), r2) => ((branch1, project, err), r2)
    | (branch, err) => ((branch, project, err), r1)
  | ((project, err), r1) => ((none, project, err), r1)

/-! ## Reference collaborators used by the concrete scenarios -/

/-- Path segments of a ref string, split at `/`. -/
def segments (cs : List Char) : List (List Char) :=
  cs.foldr
    (fun c acc =>
      if c = '/' then [] :: acc
      else
        match acc with
        | [] => [[c]]
        | s :: rest => (c :: s) :: rest)
    [[]]

/--
Modelled from the spec: `Branch.IsRemote`, declared outside `localrepo.go`;
true iff the ref lives under the remote-tracking namespace `refs/remotes/`.
-/
def Branch.IsRemote (b : Branch) : Bool :=
  match segments b.Name.toList with
  | r :: k :: _ :: _ => r == "refs".toList && k == "remotes".toList
  | _ => false

/--
Modelled from the spec: `Branch.RemoteName`, declared outside `localrepo.go`;
the first segment below the remote-tracking namespace, meaningful only for a
remote-tracking ref.
-/
def Branch.RemoteName (b : Branch) : String :=
  match segments b.Name.toList with
  | r :: k :: remote :: _ =>
    if r == "refs".toList && k == "remotes".toList then String.mk remote else ""
  | _ => ""

/--
Modelled from the spec: `Branch.ShortName`, declared outside `localrepo.go`;
the path below the branch namespace (`refs/heads/` or `refs/remotes/<remote>/`).
-/
def Branch.ShortName (b : Branch) : String :=
  match segments b.Name.toList with
  | r :: k :: rest =>
    if r == "refs".toList && k == "heads".toList then
      String.mk (List.intercalate ['/'] rest)
    else if r == "refs".toList && k == "remotes".toList then
      String.mk (List.intercalate ['/'] rest.tail)
    else b.Name
  | _ => b.Name

/-- A locator table for the scenarios: `<host>/<owner>/<name>` parses, anything else fails. -/
def parseLocator (remote : Remote) : Except Error Project :=
  match segments remote.URL.toList with
  | [host, owner, name] => .ok ⟨String.mk name, String.mk owner, String.mk host⟩
  | _ => .error "unrecognized host"

/--
Scenario environment: the backend `backend`, HEAD on `head`, the given
`push.default` value, the tracking refs `refs`, no configured upstream, and a
map iteration in the order `order`.
-/
def scenario (backend : Nat → Except Error (Option (List Remote))) (head : String)
    (pushDefault : Except Error String) (refs : List (List String))
    (order : RemoteMap → RemoteMap) : Env where
  Remotes := backend
  Project := parseLocator
  Head := .ok head
  BranchAtRef := fun _ => .error "no such ref"
  Config := fun key => if key = "push.default" then pushDefault else .error "unset"
  HasFile := fun path => decide (path ∈ refs)
  ShortName := Branch.ShortName
  IsRemote := Branch.IsRemote
  RemoteName := Branch.RemoteName
  Upstream := fun _ => .error "no upstream configured"
  mapRange := order

/-- A backend that reports the non-nil slice `catalog` at every call. -/
def reports (catalog : List Remote) : Nat → Except Error (Option (List Remote)) :=
  fun _ => .ok (some catalog)

/-- A backend with no remote configured: every call reports the `nil` slice. -/
def reportsNone : Nat → Except Error (Option (List Remote)) :=
  fun _ => .ok none

/-- A backend whose enumeration fails at every call. -/
def reportsFailure : Nat → Except Error (Option (List Remote)) :=
  fun _ => .error "Can't load git remote"

/-- `RemoteByName` called once for every name of `ns`, in order, on one session. -/
def lookups (g : Env) : List String → GitHubRepo → GitHubRepo
  | [], r => r
  | name :: rest, r => lookups g rest (RemoteByName g name r).2

/-- The remote `m` is the first remote of `cat` whose name equals `name`. -/
def FirstNamed (cat : List Remote) (name : String) (m : Remote) : Prop :=
  ∃ pre post, cat = pre ++ m :: post ∧ m.Name = name ∧ ∀ x ∈ pre, x.Name ≠ name

/-- The message of the error `MainProject` fails with. -/
def noOriginProject : Error :=
  "Aborted: the origin remote doesn't point to a GitHub repository."

/-- The remote-tracking ref name built at line 132: `refs/remotes/<remote>/<shortName>`. -/
def trackingRef (remote : Remote) (shortName : String) : Branch :=
  ⟨"refs/remotes/" ++ remote.Name ++ "/" ++ shortName⟩

/-- A catalog whose `origin` parses and whose remote `bad` has no recognizable locator. -/
def catalogWithBadRemote : List Remote :=
  [⟨"origin", "github.com/A/hub"⟩, ⟨"bad", "nowhere"⟩]

/-- A catalog with `origin` owned by `A` and a fork owned by `B`. -/
def catalogWithFork : List Remote :=
  [⟨"origin", "github.com/A/hub"⟩, ⟨"fork", "github.com/B/hub"⟩]

/-- The catalog of the spec's ranking example: `origin` (owner `A`), `fork1`, `fork2` (owner `B`). -/
def catalogTwoForks : List Remote :=
  [⟨"origin", "github.com/A/hub"⟩, ⟨"fork1", "github.com/B/hub"⟩,
   ⟨"fork2", "github.com/B/hub"⟩]

/-- The remote's locator parses to a project owned by `owner` (the test of line 50). -/
def ownerMatch (g : Env) (owner : String) (remote : Remote) : Bool :=
  match g.Project remote with
  | .ok p => decide (p.Owner = owner)
  | .error _ => false

/-- The name is one of `origin`, `github`, `upstream`. -/
def canonical (name : String) : Bool :=
  names.contains name

/-- The first remote of each canonical name present in the catalog, in the order of `names`. -/
def canonicalRemotes (cat : List Remote) : List Remote :=
  names.filterMap (fun n => cat.find? (fun remote => remote.Name == n))

/-- Map entries `name ↦ remote` of a list of remotes, in list order. -/
def entries (l : List Remote) : RemoteMap :=
  l.map (fun remote => (remote.Name, remote))

/-- The map after one round of the loop of lines 57-66 on a loaded catalog. -/
def addName (cat : List Remote) (m : RemoteMap) (n : String) : RemoteMap :=
  match m.get n with
  | some _ => m
  | none =>
    match cat.find? (fun remote => remote.Name == n) with
    | some remote => m.set remote.Name remote
    | none => m

/-- The map built by lines 45-54 from a loaded catalog. -/
def ownerMap (g : Env) (owner : String) (cat : List Remote) : RemoteMap :=
  if owner ≠ "" then cat.foldl (ownerStep g owner) [] else []

/-- The owner-matched remotes of the catalog whose name is not canonical, in catalog order. -/
def matchedOthers (g : Env) (owner : String) (cat : List Remote) : List Remote :=
  cat.filter (fun remote => ownerMatch g owner remote && !canonical remote.Name)

/-- The catalog of the spec's unfiltered example: `origin` (owner `X`) and `b` (owner `Y`). -/
def catalogOriginAndB : List Remote :=
  [⟨"origin", "github.com/X/hub"⟩, ⟨"b", "github.com/Y/hub"⟩]

/-- The scenario environment with a configured upstream: every branch tracks `upstream`. -/
def scenarioWithUpstream (backend : Nat → Except Error (Option (List Remote))) (head : String)
    (pushDefault : Except Error String) (upstream : String) : Env :=
  { scenario backend head pushDefault [] id with Upstream := fun _ => .ok ⟨upstream⟩ }

/-- A backend whose first enumeration fails and whose later ones report `catalog`. -/
def failsThenReports (catalog : List Remote) : Nat → Except Error (Option (List Remote)) :=
  fun k => if k = 0 then .error "Can't load git remote" else .ok (some catalog)

/-- A backend that first reports no remote (the `nil` slice) and later reports `catalog`. -/
def noneThenReports (catalog : List Remote) : Nat → Except Error (Option (List Remote)) :=
  fun k => if k = 0 then .ok none else .ok (some catalog)

/-- The message of the error `CurrentBranch` fails with. -/
def detachedHead : Error :=
  "Aborted: not currently on any branch."

/--
An entry of the map built by the owner scan: it is keyed by the name of its
remote, which is an owner-matched remote of the catalog.
-/
def OwnerEntry (g : Env) (owner : String) (cat : List Remote) (e : String × Remote) : Prop :=
  e.1 = e.2.Name ∧ e.2 ∈ cat ∧ ownerMatch g owner e.2 = true

/-- The candidate a canonical name contributes: its owner-map entry, else the first remote of that name. -/
def canonicalPick (g : Env) (owner : String) (cat : List Remote) (n : String) : Option Remote :=
  ((ownerMap g owner cat).get n).or (cat.find? (fun remote => remote.Name == n))

/-- The entries of the owner map left after the canonical names are removed. -/
def leftover (g : Env) (owner : String) (cat : List Remote) : RemoteMap :=
  (ownerMap g owner cat).filter (fun e => !canonical e.1)

/-- A catalog with one fork owned by `B` next to `origin` and `upstream`, both owned by `A`. -/
def catalogOneFork : List Remote :=
  [⟨"upstream", "github.com/A/hub"⟩, ⟨"fork", "github.com/B/hub"⟩,
   ⟨"origin", "github.com/A/hub"⟩]

/-! ## Lookup by name -/

theorem find_name_eq_some (cat : List Remote) (name : String) (m : Remote) :
    cat.find? (fun remote => remote.Name == name) = some m ↔ FirstNamed cat name m := by
  rw [List.find?_eq_some]
  unfold FirstNamed
  constructor
  · rintro ⟨hm, pre, post, hcat, hpre⟩
    refine ⟨pre, post, hcat, by simpa using hm, ?_⟩
    intro x hx
    simpa using hpre x hx
  · rintro ⟨pre, post, hcat, hm, hpre⟩
    refine ⟨by simpa using hm, pre, post, hcat, ?_⟩
    intro x hx
    simpa using hpre x hx

theorem find_name_eq_none (cat : List Remote) (name : String) :
    cat.find? (fun remote => remote.Name == name) = none ↔ ¬ ∃ m ∈ cat, m.Name = name := by
  simp

theorem firstNamed_unique {cat : List Remote} {name : String} {m m' : Remote}
    (h : FirstNamed cat name m) (h' : FirstNamed cat name m') : m = m' := by
  rw [← find_name_eq_some] at h h'
  rw [h] at h'
  exact Option.some.inj h'

theorem firstNamed_mem {cat : List Remote} {name : String} {m : Remote}
    (h : FirstNamed cat name m) : m ∈ cat ∧ m.Name = name := by
  obtain ⟨pre, post, hcat, hm, -⟩ := h
  exact ⟨by simp [hcat], hm⟩

theorem RemoteByName_eq (g : Env) (name : String) (r : GitHubRepo) :
    RemoteByName g name r =
      (match (loadRemotes g r).2.catalog.find? (fun remote => remote.Name == name) with
        | some remote => (some remote, none)
        | none => (none, some ("No git remote with name " ++ name)),
       (loadRemotes g r).2) := by
  unfold RemoteByName
  dsimp only
  cases (loadRemotes g r).2.catalog.find? (fun remote => remote.Name == name) <;> rfl

theorem loadRemotes_loaded (g : Env) (r : GitHubRepo) (cat : List Remote)
    (h : r.remotes = some cat) : loadRemotes g r = (none, r) := by
  unfold loadRemotes
  rw [h]

/--
C2. `RemoteByName(name)` succeeds iff some remote of the catalog (the list
stored after `loadRemotes`) is named exactly `name`; a successful call returns
the first such remote in catalog order; otherwise the call fails with the
remote-not-found error carrying `name`.
-/
theorem RemoteByName_first_match (g : Env) (name : String) (r : GitHubRepo) :
    ((∃ m, (RemoteByName g name r).1 = (some m, none)) ↔
        ∃ m ∈ (loadRemotes g r).2.catalog, m.Name = name) ∧
    (∀ m, (RemoteByName g name r).1 = (some m, none) ↔
        FirstNamed (loadRemotes g r).2.catalog name m) ∧
    ((¬ ∃ m, (RemoteByName g name r).1 = (some m, none)) ↔
        (RemoteByName g name r).1 = (none, some ("No git remote with name " ++ name))) := by
  rw [RemoteByName_eq]
  cases hf : (loadRemotes g r).2.catalog.find? (fun remote => remote.Name == name) with
  | none =>
    have hno := (find_name_eq_none _ _).1 hf
    refine ⟨?_, ?_, ?_⟩
    · simp only [Prod.mk.injEq, Option.some_ne_none, and_true, exists_false, false_iff,
        reduceCtorEq, false_and]
      exact hno
    · intro m
      simp only [Prod.mk.injEq, reduceCtorEq, false_and, false_iff]
      intro hfirst
      rw [← find_name_eq_some, hf] at hfirst
      exact Option.noConfusion hfirst
    · simp
  | some m0 =>
    have hfirst := (find_name_eq_some _ _ _).1 hf
    refine ⟨?_, ?_, ?_⟩
    · simp only [Prod.mk.injEq, and_true, Option.some.injEq, exists_eq', true_iff]
      exact ⟨m0, (firstNamed_mem hfirst).1, (firstNamed_mem hfirst).2⟩
    · intro m
      simp only [Prod.mk.injEq, and_true, Option.some.injEq]
      constructor
      · rintro rfl
        exact hfirst
      · intro h
        exact firstNamed_unique hfirst h
    · simp

/-! ## Project resolution -/

theorem MainProject_eq (g : Env) (r : GitHubRepo) :
    MainProject g r =
      (match (loadRemotes g r).2.catalog.find? (fun remote => remote.Name == "origin") with
        | some origin =>
          match g.Project origin with
          | .ok p => (some p, none)
          | .error _ => (none, some noOriginProject)
        | none => (none, some noOriginProject),
       (loadRemotes g r).2) := by
  unfold MainProject
  rw [RemoteByName_eq]
  cases (loadRemotes g r).2.catalog.find? (fun remote => remote.Name == "origin") with
  | none => rfl
  | some origin =>
    dsimp only
    cases g.Project origin <;> rfl

/--
C6. `MainProject` succeeds iff the catalog has a remote named `origin` and
the locator of the first such remote parses, and then returns exactly the
parsed project; when `origin` is missing and when its locator does not parse
it fails with one and the same error.
-/
theorem MainProject_origin (g : Env) (r : GitHubRepo) :
    (∀ p, (MainProject g r).1 = (some p, none) ↔
        ∃ o, FirstNamed (loadRemotes g r).2.catalog "origin" o ∧ g.Project o = .ok p) ∧
    ((MainProject g r).1.2 = none ↔
        ∃ o p, FirstNamed (loadRemotes g r).2.catalog "origin" o ∧ g.Project o = .ok p) ∧
    ((¬ ∃ m ∈ (loadRemotes g r).2.catalog, m.Name = "origin") →
        (MainProject g r).1 = (none, some noOriginProject)) ∧
    (∀ o e, FirstNamed (loadRemotes g r).2.catalog "origin" o → g.Project o = .error e →
        (MainProject g r).1 = (none, some noOriginProject)) := by
  rw [MainProject_eq]
  cases hf : (loadRemotes g r).2.catalog.find? (fun remote => remote.Name == "origin") with
  | none =>
    have hnone : ∀ o, ¬ FirstNamed (loadRemotes g r).2.catalog "origin" o := by
      intro o ho
      rw [← find_name_eq_some, hf] at ho
      exact Option.noConfusion ho
    refine ⟨?_, ?_, ?_, ?_⟩
    · intro p
      simp only [Prod.mk.injEq, reduceCtorEq, false_and, false_iff]
      rintro ⟨o, ho, -⟩
      exact hnone o ho
    · simp only [reduceCtorEq, false_iff]
      rintro ⟨o, p, ho, -⟩
      exact hnone o ho
    · intro _
      rfl
    · intro o e ho
      exact absurd ho (hnone o)
  | some origin =>
    have hfirst := (find_name_eq_some _ _ _).1 hf
    have huniq : ∀ o, FirstNamed (loadRemotes g r).2.catalog "origin" o → o = origin :=
      fun o ho => firstNamed_unique ho hfirst
    dsimp only
    cases hp : g.Project origin with
    | error e =>
      refine ⟨?_, ?_, ?_, ?_⟩
      · intro p
        simp only [Prod.mk.injEq, reduceCtorEq, false_and, false_iff]
        rintro ⟨o, ho, hop⟩
        rw [huniq o ho, hp] at hop
        exact Except.noConfusion hop
      · simp only [reduceCtorEq, false_iff]
        rintro ⟨o, p, ho, hop⟩
        rw [huniq o ho, hp] at hop
        exact Except.noConfusion hop
      · intro _
        rfl
      · intro _ _ _ _
        rfl
    | ok p0 =>
      refine ⟨?_, ?_, ?_, ?_⟩
      · intro p
        simp only [Prod.mk.injEq, Option.some.injEq, and_true]
        constructor
        · rintro rfl
          exact ⟨origin, hfirst, hp⟩
        · rintro ⟨o, ho, hop⟩
          rw [huniq o ho, hp] at hop
          exact Except.ok.inj hop
      · simp only [true_iff]
        exact ⟨origin, p0, hfirst, hp⟩
      · intro hno
        exact absurd ⟨origin, (firstNamed_mem hfirst).1, (firstNamed_mem hfirst).2⟩ hno
      · intro o e ho hop
        rw [huniq o ho, hp] at hop
        exact Except.noConfusion hop

theorem MainProject_error (g : Env) (r : GitHubRepo) :
    (MainProject g r).1.2 = none ∨ (MainProject g r).1.2 = some noOriginProject := by
  rw [MainProject_eq]
  cases (loadRemotes g r).2.catalog.find? (fun remote => remote.Name == "origin") with
  | none => exact Or.inr rfl
  | some origin =>
    dsimp only
    cases g.Project origin with
    | error e => exact Or.inr rfl
    | ok p => exact Or.inl rfl

/--
C7. `CurrentProject` returns the project of `UpstreamProject` when that call
succeeds; when it fails, `CurrentProject` returns exactly what `MainProject`
returns (run on the session `UpstreamProject` left), so the only error it can
return is that of `MainProject`, and it fails iff both calls fail.
-/
theorem CurrentProject_fallback (g : Env) (r : GitHubRepo) :
    (∀ p r1, UpstreamProject g r = ((p, none), r1) → CurrentProject g r = ((p, none), r1)) ∧
    (∀ p e r1, UpstreamProject g r = ((p, some e), r1) →
        CurrentProject g r = MainProject g r1) ∧
    ((CurrentProject g r).1.2 ≠ none ↔
        (UpstreamProject g r).1.2 ≠ none ∧
        (MainProject g (UpstreamProject g r).2).1.2 ≠ none) ∧
    ((CurrentProject g r).1.2 = none ∨ (CurrentProject g r).1.2 = some noOriginProject) := by
  unfold CurrentProject
  rcases hu : UpstreamProject g r with ⟨⟨p0, e0⟩, r0⟩
  cases e0 with
  | none =>
    refine ⟨?_, ?_, ?_, ?_⟩
    · intro p r1 h
      rw [← h]
    · intro p e r1 h
      simp at h
    · simp
    · exact Or.inl rfl
  | some e =>
    refine ⟨?_, ?_, ?_, ?_⟩
    · intro p r1 h
      simp at h
    · intro p e1 r1 h
      obtain ⟨-, rfl⟩ := Prod.mk.inj h
      rfl
    · simp
    · exact MainProject_error g r0

/-! ## Lazy loading -/

theorem loadRemotes_queries_loaded (g : Env) (r : GitHubRepo) (cat : List Remote)
    (h : r.remotes = some cat) : (loadRemotes g r).2 = r := by
  rw [loadRemotes_loaded g r cat h]

theorem lookups_loaded (g : Env) (ns : List String) (r : GitHubRepo) (cat : List Remote)
    (h : r.remotes = some cat) : lookups g ns r = r := by
  induction ns with
  | nil => rfl
  | cons name rest ih =>
    unfold lookups
    rw [RemoteByName_eq, loadRemotes_queries_loaded g r cat h]
    exact ih

/--
Load-once on a non-nil report: on a fresh session whose first enumeration
reports a non-nil slice, any non-empty sequence of `RemoteByName` calls
queries the backend exactly once.
-/
theorem lookups_query_once (g : Env) (cat : List Remote) (name : String) (rest : List String)
    (h : g.Remotes 0 = .ok (some cat)) :
    (lookups g (name :: rest) LocalRepo).queries = 1 := by
  unfold lookups
  rw [RemoteByName_eq]
  have hl : (loadRemotes g LocalRepo).2 = ⟨some cat, 1⟩ := by
    simp [loadRemotes, LocalRepo, h]
  rw [hl, lookups_loaded g rest ⟨some cat, 1⟩ cat rfl]

theorem lookups_nil_report (g : Env) (h : ∀ k, g.Remotes k = .ok none) (ns : List String)
    (k : Nat) : lookups g ns ⟨none, k⟩ = ⟨none, k + ns.length⟩ := by
  induction ns generalizing k with
  | nil => rfl
  | cons name rest ih =>
    unfold lookups
    rw [RemoteByName_eq]
    have hl : (loadRemotes g ⟨none, k⟩).2 = ⟨none, k + 1⟩ := by
      simp [loadRemotes, h]
    rw [hl, ih (k + 1), List.length_cons]
    congr 1
    omega

/--
C9 (code at the failing input). When the backend reports no remote (the
`nil` slice, with no error), the load guard `r.remotes != nil` never sees the
catalog as loaded: after `N` calls of `RemoteByName` on a fresh session the
backend has been queried `N` times, so twice after two calls.
-/
theorem RemoteByName_requeries_empty_report :
    (∀ ns : List String,
      (lookups (scenario reportsNone "refs/heads/master" (.error "unset") [] id) ns
        LocalRepo).queries = ns.length) ∧
    (lookups (scenario reportsNone "refs/heads/master" (.error "unset") [] id)
      ["origin", "origin"] LocalRepo).queries = 2 := by
  have h : ∀ ns : List String,
      (lookups (scenario reportsNone "refs/heads/master" (.error "unset") [] id) ns
        LocalRepo).queries = ns.length := by
    intro ns
    have := lookups_nil_report
      (scenario reportsNone "refs/heads/master" (.error "unset") [] id) (fun _ => rfl) ns 0
    rw [LocalRepo, this]
    simp
  exact ⟨h, h ["origin", "origin"]⟩

/--
C10 (code at the failing input). On a fresh session whose backend enumeration
fails, `RemoteByName(name)` discards the error `loadRemotes` returns and
fails, for every name, with the remote-not-found error, not with the backend
error.
-/
theorem RemoteByName_drops_backend_error :
    (loadRemotes (scenario reportsFailure "refs/heads/master" (.error "unset") [] id)
      LocalRepo).1 = some "Can't load git remote" ∧
    ∀ name : String,
      (RemoteByName (scenario reportsFailure "refs/heads/master" (.error "unset") [] id)
        name LocalRepo).1 = (none, some ("No git remote with name " ++ name)) ∧
      (RemoteByName (scenario reportsFailure "refs/heads/master" (.error "unset") [] id)
        name LocalRepo).1.2 ≠ some "Can't load git remote" := by
  refine ⟨rfl, ?_⟩
  intro name
  have h : (RemoteByName (scenario reportsFailure "refs/heads/master" (.error "unset") [] id)
        name LocalRepo).1 = (none, some ("No git remote with name " ++ name)) := rfl
  refine ⟨h, ?_⟩
  rw [h]
  intro hEq
  have hlen := congrArg String.length (Option.some.inj hEq)
  rw [String.length_append] at hlen
  have h1 : ("No git remote with name ".length : Nat) = 24 := by decide
  have h2 : ("Can't load git remote".length : Nat) = 21 := by decide
  omega

/-! ## Publish target: the push-default step -/

theorem CurrentBranch_ok (g : Env) (head : String) (h : g.Head = .ok head) :
    CurrentBranch g = (some ⟨head⟩, none) := by
  unfold CurrentBranch
  rw [h]

theorem pushDefaultStep_tracking (g : Env) (owner : String) (b : Branch) (r : GitHubRepo)
    (h : goString (g.Config "push.default") = "upstream" ∨
      goString (g.Config "push.default") = "tracking") :
    pushDefaultStep g owner b r = (goPair (g.Upstream b), r) := by
  unfold pushDefaultStep
  simp only [h, if_true]

theorem pushDefaultStep_ranked (g : Env) (owner : String) (b : Branch) (r : GitHubRepo)
    (h1 : goString (g.Config "push.default") ≠ "upstream")
    (h2 : goString (g.Config "push.default") ≠ "tracking") :
    pushDefaultStep g owner b r =
      ((some (scanRemotes g (g.ShortName b) (remotesForPublish g owner r).1 b), none),
       (remotesForPublish g owner r).2) := by
  unfold pushDefaultStep
  simp only [h1, h2, or_self, if_false]

theorem scanRemotes_first (g : Env) (shortName : String) (b : Branch) (c : Remote)
    (post : List Remote) :
    ∀ pre : List Remote,
      (∀ x ∈ pre, g.HasFile ["refs", "remotes", x.Name, shortName] = false) →
      g.HasFile ["refs", "remotes", c.Name, shortName] = true →
      scanRemotes g shortName (pre ++ c :: post) b = trackingRef c shortName := by
  intro pre
  induction pre with
  | nil =>
    intro _ hc
    simp [scanRemotes, hc, trackingRef]
  | cons x rest ih =>
    intro hpre hc
    have hx : g.HasFile ["refs", "remotes", x.Name, shortName] = false :=
      hpre x (List.mem_cons_self _ _)
    simp only [List.cons_append, scanRemotes, hx, Bool.false_eq_true, if_false]
    exact ih (fun y hy => hpre y (List.mem_cons_of_mem _ hy)) hc

theorem scanRemotes_none (g : Env) (shortName : String) (b : Branch) :
    ∀ cands : List Remote,
      (∀ x ∈ cands, g.HasFile ["refs", "remotes", x.Name, shortName] = false) →
      scanRemotes g shortName cands b = b := by
  intro cands
  induction cands with
  | nil =>
    intro _
    rfl
  | cons x rest ih =>
    intro h
    have hx : g.HasFile ["refs", "remotes", x.Name, shortName] = false :=
      h x (List.mem_cons_self _ _)
    simp only [scanRemotes, hx, Bool.false_eq_true, if_false]
    exact ih (fun y hy => h y (List.mem_cons_of_mem _ hy))

theorem overrideStep_branch (g : Env) (b : Branch) (p : Option Project) (r : GitHubRepo) :
    (overrideStep g b p r).1.1 = some b := by
  unfold overrideStep
  split
  · rw [RemoteByName_eq]
    split <;> rfl
  · rfl

theorem overrideStep_local (g : Env) (b : Branch) (p : Option Project) (r : GitHubRepo)
    (h : g.IsRemote b = false) : overrideStep g b p r = ((some b, p, none), r) := by
  unfold overrideStep
  simp [h]

theorem RemoteBranchAndProject_ranked_eq (g : Env) (owner : String) (r r1 : GitHubRepo)
    (p : Project) (head : String)
    (hM : MainProject g r = ((some p, none), r1))
    (hH : g.Head = .ok head)
    (h1 : goString (g.Config "push.default") ≠ "upstream")
    (h2 : goString (g.Config "push.default") ≠ "tracking") :
    RemoteBranchAndProject g owner r =
      overrideStep g
        (scanRemotes g (g.ShortName ⟨head⟩) (remotesForPublish g owner r1).1 ⟨head⟩)
        (some p) (remotesForPublish g owner r1).2 := by
  unfold RemoteBranchAndProject
  rw [hM]
  dsimp only
  rw [CurrentBranch_ok g head hH]
  dsimp only
  rw [pushDefaultStep_ranked g owner ⟨head⟩ r1 h1 h2]

/--
C5 (counterexample). With push-default `upstream`, `origin` parsing to a
project and no tracking branch configured, `RemoteBranchAndProject` returns
the no-upstream error and no branch, but its project result is present: it
still holds the project `MainProject` returned.
-/
theorem RemoteBranchAndProject_no_upstream_keeps_project :
    (RemoteBranchAndProject
        (scenario (reports catalogWithFork) "refs/heads/feature" (.ok "upstream") [] id)
        "" LocalRepo).1 =
      (none, some ⟨"hub", "A", "github.com"⟩, some "no upstream configured") ∧
    (RemoteBranchAndProject
        (scenario (reports catalogWithFork) "refs/heads/feature" (.ok "upstream") [] id)
        "" LocalRepo).1.2.1 ≠ none := by
  decide

/--
C5 (amended). When `MainProject` and `CurrentBranch` succeed, the
push-default value is `upstream` or `tracking` and the current branch has no
configured tracking branch, `RemoteBranchAndProject` returns the no-upstream
error together with no branch, for every owner filter and without touching
the session any further (no ranked-remote fallback); the project result is
the project of `MainProject`.
-/
theorem RemoteBranchAndProject_no_upstream (g : Env) (owner : String) (r r1 : GitHubRepo)
    (p : Project) (head : String) (e : Error)
    (hM : MainProject g r = ((some p, none), r1))
    (hH : g.Head = .ok head)
    (hD : goString (g.Config "push.default") = "upstream" ∨
      goString (g.Config "push.default") = "tracking")
    (hU : g.Upstream ⟨head⟩ = .error e) :
    RemoteBranchAndProject g owner r = ((none, some p, some e), r1) := by
  unfold RemoteBranchAndProject
  rw [hM]
  dsimp only
  rw [CurrentBranch_ok g head hH]
  dsimp only
  rw [pushDefaultStep_tracking g owner ⟨head⟩ r1 hD, hU]
  rfl

/-- Witness of `RemoteBranchAndProject_no_upstream`: push-default `tracking`, owner filter `B`. -/
theorem RemoteBranchAndProject_no_upstream_witness :
    RemoteBranchAndProject
        (scenario (reports catalogWithFork) "refs/heads/feature" (.ok "tracking") [] id)
        "B" LocalRepo =
      ((none, some ⟨"hub", "A", "github.com"⟩, some "no upstream configured"),
       ⟨some catalogWithFork, 1⟩) :=
  RemoteBranchAndProject_no_upstream
    (scenario (reports catalogWithFork) "refs/heads/feature" (.ok "tracking") [] id)
    "B" LocalRepo ⟨some catalogWithFork, 1⟩ ⟨"hub", "A", "github.com"⟩ "refs/heads/feature"
    "no upstream configured" (by decide) rfl (Or.inr (by decide)) rfl

/--
C3 (counterexample). HEAD points at the remote-tracking ref
`refs/remotes/bad/x`, push-default is unset, `origin` parses and no
candidate of `remotesForPublish` has a tracking ref for the short name: the
branch is left unchanged, but the call does not succeed, because the
override step resolves the remote `bad`, whose locator does not parse.
-/
theorem RemoteBranchAndProject_no_candidate_may_fail :
    (MainProject
        (scenario (reports catalogWithBadRemote) "refs/remotes/bad/x" (.error "unset") [] id)
        LocalRepo).1 = (some ⟨"hub", "A", "github.com"⟩, none) ∧
    CurrentBranch
        (scenario (reports catalogWithBadRemote) "refs/remotes/bad/x" (.error "unset") [] id)
      = (some ⟨"refs/remotes/bad/x"⟩, none) ∧
    goString ((scenario (reports catalogWithBadRemote) "refs/remotes/bad/x"
        (.error "unset") [] id).Config "push.default") = "" ∧
    (remotesForPublish
        (scenario (reports catalogWithBadRemote) "refs/remotes/bad/x" (.error "unset") [] id)
        "" ⟨some catalogWithBadRemote, 1⟩).1 = [⟨"origin", "github.com/A/hub"⟩] ∧
    (scenario (reports catalogWithBadRemote) "refs/remotes/bad/x" (.error "unset") [] id).HasFile
        ["refs", "remotes", "origin", "x"] = false ∧
    (RemoteBranchAndProject
        (scenario (reports catalogWithBadRemote) "refs/remotes/bad/x" (.error "unset") [] id)
        "" LocalRepo).1 = (some ⟨"refs/remotes/bad/x"⟩, none, some "unrecognized host") := by
  decide

/--
C3 (amended). When `MainProject` and `CurrentBranch` succeed and the
push-default value is neither `upstream` nor `tracking`,
`RemoteBranchAndProject(owner)` returns as branch
`refs/remotes/<c.Name>/<shortName of the current branch>` for the first
candidate `c` of `remotesForPublish(owner)`, in order, whose remote-tracking
ref exists locally, whatever the later candidates are; if no candidate's ref
exists the returned branch is the original current branch, and the call
succeeds with the project of `MainProject` when that branch is not itself a
remote-tracking ref.
-/
theorem RemoteBranchAndProject_ranked (g : Env) (owner : String) (r r1 : GitHubRepo)
    (p : Project) (head : String)
    (hM : MainProject g r = ((some p, none), r1))
    (hH : g.Head = .ok head)
    (h1 : goString (g.Config "push.default") ≠ "upstream")
    (h2 : goString (g.Config "push.default") ≠ "tracking") :
    (∀ pre c post, (remotesForPublish g owner r1).1 = pre ++ c :: post →
      (∀ x ∈ pre, g.HasFile ["refs", "remotes", x.Name, g.ShortName ⟨head⟩] = false) →
      g.HasFile ["refs", "remotes", c.Name, g.ShortName ⟨head⟩] = true →
      (RemoteBranchAndProject g owner r).1.1 =
        some ⟨"refs/remotes/" ++ c.Name ++ "/" ++ g.ShortName ⟨head⟩⟩) ∧
    ((∀ x ∈ (remotesForPublish g owner r1).1,
        g.HasFile ["refs", "remotes", x.Name, g.ShortName ⟨head⟩] = false) →
      (RemoteBranchAndProject g owner r).1.1 = some ⟨head⟩ ∧
      (g.IsRemote ⟨head⟩ = false →
        (RemoteBranchAndProject g owner r).1 = (some ⟨head⟩, some p, none))) := by
  rw [RemoteBranchAndProject_ranked_eq g owner r r1 p head hM hH h1 h2]
  refine ⟨?_, ?_⟩
  · intro pre c post hc hpre hfile
    rw [overrideStep_branch, hc, scanRemotes_first g _ ⟨head⟩ c post pre hpre hfile]
    rfl
  · intro hnone
    rw [scanRemotes_none g _ ⟨head⟩ _ hnone]
    refine ⟨overrideStep_branch g ⟨head⟩ (some p) _, ?_⟩
    intro hlocal
    rw [overrideStep_local g ⟨head⟩ (some p) _ hlocal]

/--
Witness of `RemoteBranchAndProject_ranked`: catalog `origin`, `fork1`,
`fork2`, owner filter `B`, current branch `feature`, and a tracking ref for
`fork1/feature` only; the candidates are `fork2`, `fork1`, `origin` and the
branch becomes `refs/remotes/fork1/feature`.
-/
theorem RemoteBranchAndProject_ranked_witness :
    (remotesForPublish
        (scenario (reports catalogTwoForks) "refs/heads/feature" (.error "unset")
          [["refs", "remotes", "fork1", "feature"]] id)
        "B" ⟨some catalogTwoForks, 1⟩).1 =
      [⟨"fork2", "github.com/B/hub"⟩] ++
        (⟨"fork1", "github.com/B/hub"⟩ : Remote) :: [⟨"origin", "github.com/A/hub"⟩] ∧
    (RemoteBranchAndProject
        (scenario (reports catalogTwoForks) "refs/heads/feature" (.error "unset")
          [["refs", "remotes", "fork1", "feature"]] id)
        "B" LocalRepo).1.1 = some ⟨"refs/remotes/fork1/feature"⟩ :=
  ⟨by decide,
   (RemoteBranchAndProject_ranked
      (scenario (reports catalogTwoForks) "refs/heads/feature" (.error "unset")
        [["refs", "remotes", "fork1", "feature"]] id)
      "B" LocalRepo ⟨some catalogTwoForks, 1⟩ ⟨"hub", "A", "github.com"⟩ "refs/heads/feature"
      (by decide) rfl (by decide) (by decide)).1
      [⟨"fork2", "github.com/B/hub"⟩] ⟨"fork1", "github.com/B/hub"⟩
      [⟨"origin", "github.com/A/hub"⟩] (by decide) (by decide) (by decide)⟩

/-! ## Publish target: the project override -/

/--
C4. In `RemoteBranchAndProject`, when the branch left by the push-default
step is a remote-tracking ref and `RemoteByName(branch.RemoteName())` finds a
remote `m`, the returned project and error are exactly those of
`m.Project()`: the project parsed from `m` on success, and the parse error
(with no project) when the locator of `m` does not parse; the returned branch
is the branch of the push-default step.
-/
theorem RemoteBranchAndProject_override (g : Env) (owner : String) (r r1 r2 r3 : GitHubRepo)
    (p : Project) (b0 b : Branch) (m : Remote)
    (hM : MainProject g r = ((some p, none), r1))
    (hB : CurrentBranch g = (some b0, none))
    (hS : pushDefaultStep g owner b0 r1 = ((some b, none), r2))
    (hR : g.IsRemote b = true)
    (hN : RemoteByName g (g.RemoteName b) r2 = ((some m, none), r3)) :
    RemoteBranchAndProject g owner r =
        ((some b, (goPair (g.Project m)).1, (goPair (g.Project m)).2), r3) ∧
    (∀ q, g.Project m = .ok q →
        (RemoteBranchAndProject g owner r).1 = (some b, some q, none)) ∧
    (∀ e, g.Project m = .error e →
        (RemoteBranchAndProject g owner r).1 = (some b, none, some e)) := by
  have hmain : RemoteBranchAndProject g owner r =
      ((some b, (goPair (g.Project m)).1, (goPair (g.Project m)).2), r3) := by
    unfold RemoteBranchAndProject
    rw [hM]
    dsimp only
    rw [hB]
    dsimp only
    rw [hS]
    dsimp only
    unfold overrideStep
    rw [if_pos hR, hN]
  refine ⟨hmain, ?_, ?_⟩
  · intro q hq
    rw [hmain, hq]
    rfl
  · intro e he
    rw [hmain, he]
    rfl

/--
Witness of `RemoteBranchAndProject_override`: push-default unset, current
branch `feature`, owner filter `B`, and a tracking ref only for
`fork/feature`; the result is the branch `refs/remotes/fork/feature` with the
project of `fork`, not that of `origin`.
-/
theorem RemoteBranchAndProject_override_witness :
    (MainProject
        (scenario (reports catalogWithFork) "refs/heads/feature" (.error "unset")
          [["refs", "remotes", "fork", "feature"]] id)
        LocalRepo).1 = (some ⟨"hub", "A", "github.com"⟩, none) ∧
    RemoteBranchAndProject
        (scenario (reports catalogWithFork) "refs/heads/feature" (.error "unset")
          [["refs", "remotes", "fork", "feature"]] id)
        "B" LocalRepo =
      ((some ⟨"refs/remotes/fork/feature"⟩, some ⟨"hub", "B", "github.com"⟩, none),
       ⟨some catalogWithFork, 1⟩) :=
  ⟨by decide,
   (RemoteBranchAndProject_override
      (scenario (reports catalogWithFork) "refs/heads/feature" (.error "unset")
        [["refs", "remotes", "fork", "feature"]] id)
      "B" LocalRepo ⟨some catalogWithFork, 1⟩ ⟨some catalogWithFork, 1⟩
      ⟨some catalogWithFork, 1⟩ ⟨"hub", "A", "github.com"⟩ ⟨"refs/heads/feature"⟩
      ⟨"refs/remotes/fork/feature"⟩ ⟨"fork", "github.com/B/hub"⟩
      (by decide) rfl (by decide) (by decide) (by decide)).1⟩

/-! ## The Go map model -/

theorem lookup_head (a k' : String) (b : Remote) (rest : RemoteMap) :
    List.lookup k' ((a, b) :: rest) = if k' = a then some b else List.lookup k' rest := by
  rw [List.lookup_cons]
  by_cases h : k' = a
  · subst h
    simp
  · have hb : (k' == a) = false := by simpa using h
    rw [hb, if_neg h]

theorem get_set (m : RemoteMap) (k : String) (v : Remote) (k' : String) :
    (m.set k v).get k' = if k' = k then some v else m.get k' := by
  induction m with
  | nil =>
    simp only [RemoteMap.set, RemoteMap.get, lookup_head, List.lookup_nil]
  | cons e rest ih =>
    obtain ⟨a, b⟩ := e
    simp only [RemoteMap.set]
    by_cases hak : a = k
    · subst hak
      simp only [if_true, RemoteMap.get, lookup_head]
      by_cases h : k' = a <;> simp [h]
    · simp only [hak, if_false]
      simp only [RemoteMap.get, lookup_head] at ih ⊢
      rw [ih]
      by_cases h : k' = a
      · subst h
        simp [hak]
      · simp [h]

theorem get_delete (m : RemoteMap) (k k' : String) :
    (m.delete k).get k' = if k' = k then none else m.get k' := by
  induction m with
  | nil =>
    simp [RemoteMap.delete, RemoteMap.get]
  | cons e rest ih =>
    obtain ⟨a, b⟩ := e
    simp only [RemoteMap.delete, RemoteMap.get] at ih ⊢
    by_cases hak : a = k
    · subst hak
      simp only [List.filter_cons, beq_self_eq_true, Bool.not_true, Bool.false_eq_true,
        if_false, lookup_head]
      rw [ih]
      by_cases h : k' = a <;> simp [h]
    · have hb : (a == k) = false := by simpa using hak
      simp only [List.filter_cons, hb, Bool.not_false, if_true, lookup_head]
      rw [ih]
      by_cases h : k' = a
      · subst h
        simp [hak]
      · simp [h]

theorem filter_set (p : String → Bool) (m : RemoteMap) (k : String) (v : Remote)
    (hk : p k = false) :
    (m.set k v).filter (fun e => p e.1) = m.filter (fun e => p e.1) := by
  induction m with
  | nil => simp [RemoteMap.set, hk]
  | cons e rest ih =>
    obtain ⟨a, b⟩ := e
    simp only [RemoteMap.set]
    by_cases hak : a = k
    · subst hak
      simp [List.filter_cons, hk]
    · simp only [hak, if_false, List.filter_cons, ih]

theorem set_absent (m : RemoteMap) (k : String) (v : Remote) (h : ∀ e ∈ m, e.1 ≠ k) :
    m.set k v = m ++ [(k, v)] := by
  induction m with
  | nil => rfl
  | cons e rest ih =>
    obtain ⟨a, b⟩ := e
    have hak : a ≠ k := h (a, b) (List.mem_cons_self _ _)
    simp only [RemoteMap.set, hak, if_false, List.cons_append]
    rw [ih (fun e he => h e (List.mem_cons_of_mem _ he))]

theorem prepend_fold (l : RemoteMap) (out : List Remote) :
    l.foldl (fun remotes e => e.2 :: remotes) out = (l.map Prod.snd).reverse ++ out := by
  induction l generalizing out with
  | nil => rfl
  | cons e rest ih =>
    simp only [List.foldl_cons, List.map_cons, List.reverse_cons, List.append_assoc,
      List.singleton_append]
    exact ih (e.2 :: out)

theorem delete_absent (m : RemoteMap) (k : String) (h : m.get k = none) : m.delete k = m := by
  unfold RemoteMap.get at h
  rw [List.lookup_eq_none_iff] at h
  unfold RemoteMap.delete
  rw [List.filter_eq_self]
  intro e he
  have := h e he
  simp only [Bool.not_eq_true', beq_eq_false_iff_ne, ne_eq]
  intro hek
  rw [hek] at this
  simp at this

/-! ## The candidate ranking on a loaded catalog -/

theorem lookupStep_loaded (g : Env) (cat : List Remote) (m : RemoteMap) (r : GitHubRepo)
    (n : String) (h : r.remotes = some cat) :
    lookupStep g (m, r) n = (addName cat m n, r) := by
  unfold lookupStep addName
  dsimp only
  cases m.get n with
  | some v => rfl
  | none =>
    dsimp only
    rw [RemoteByName_eq, loadRemotes_queries_loaded g r cat h]
    have hc : r.catalog = cat := by simp [GitHubRepo.catalog, h]
    rw [hc]
    cases cat.find? (fun remote => remote.Name == n) <;> rfl

theorem get_addName (cat : List Remote) (m : RemoteMap) (n k : String) :
    (addName cat m n).get k =
      if k = n then (m.get n).or (cat.find? (fun remote => remote.Name == n)) else m.get k := by
  unfold addName
  cases hm : m.get n with
  | some v =>
    dsimp only
    by_cases hk : k = n
    · rw [if_pos hk, hk, hm]
      rfl
    · rw [if_neg hk]
  | none =>
    dsimp only
    cases hf : cat.find? (fun remote => remote.Name == n) with
    | none =>
      dsimp only
      by_cases hk : k = n
      · rw [if_pos hk, hk, hm]
        rfl
      · rw [if_neg hk]
    | some x =>
      dsimp only
      have hx : x.Name = n := by simpa using List.find?_some hf
      rw [get_set, hx]
      by_cases hk : k = n
      · rw [if_pos hk, if_pos hk]
        rfl
      · rw [if_neg hk, if_neg hk]

theorem filter_addName (p : String → Bool) (cat : List Remote) (m : RemoteMap) (n : String)
    (hn : p n = false) :
    (addName cat m n).filter (fun e => p e.1) = m.filter (fun e => p e.1) := by
  unfold addName
  cases m.get n with
  | some v => rfl
  | none =>
    dsimp only
    cases hf : cat.find? (fun remote => remote.Name == n) with
    | none => rfl
    | some x =>
      dsimp only
      have hx : x.Name = n := by simpa using List.find?_some hf
      rw [hx]
      exact filter_set p m n x hn

theorem takeStep_eq (out : List Remote) (m : RemoteMap) (n : String) :
    takeStep (out, m) n = (out ++ (m.get n).toList, m.delete n) := by
  unfold takeStep
  dsimp only
  cases hm : m.get n with
  | some v => rfl
  | none =>
    dsimp only
    rw [delete_absent m n hm]
    simp

theorem delete_names (m : RemoteMap) :
    ((m.delete "origin").delete "github").delete "upstream" =
      m.filter (fun e => !canonical e.1) := by
  unfold RemoteMap.delete
  rw [List.filter_filter, List.filter_filter]
  apply List.filter_congr
  intro e _
  simp only [canonical, names, List.contains_cons, List.contains_nil, Bool.or_false,
    Bool.not_or]
  cases e.1 == "origin" <;> cases e.1 == "github" <;> cases e.1 == "upstream" <;> rfl

theorem filterMap_three (f : String → Option Remote) (a b c : String) :
    [a, b, c].filterMap f = (f a).toList ++ ((f b).toList ++ (f c).toList) := by
  simp only [List.filterMap_cons, List.filterMap_nil]
  cases f a <;> cases f b <;> cases f c <;> rfl

theorem filter_addName_names (cat : List Remote) (m : RemoteMap) :
    (addName cat (addName cat (addName cat m "origin") "github") "upstream").filter
        (fun e => !canonical e.1) =
      m.filter (fun e => !canonical e.1) := by
  rw [filter_addName (fun k => !canonical k) cat _ "upstream" (by decide),
    filter_addName (fun k => !canonical k) cat _ "github" (by decide),
    filter_addName (fun k => !canonical k) cat _ "origin" (by decide)]

/--
Closed form of `remotesForPublish` on a session whose catalog is loaded: the
entries of the owner map outside the canonical names, in the reverse of the
order the map iteration visits them, then for each canonical name the entry
of the owner map, or else the first remote of that name.
-/
theorem remotesForPublish_loaded (g : Env) (owner : String) (r : GitHubRepo)
    (cat : List Remote) (h : r.remotes = some cat) :
    remotesForPublish g owner r =
      (((g.mapRange ((ownerMap g owner cat).filter (fun e => !canonical e.1))).map
          Prod.snd).reverse ++
        names.filterMap (fun n =>
          ((ownerMap g owner cat).get n).or (cat.find? (fun remote => remote.Name == n))),
       r) := by
  have hc : r.catalog = cat := by simp [GitHubRepo.catalog, h]
  unfold remotesForPublish
  rw [loadRemotes_queries_loaded g r cat h]
  dsimp only
  rw [hc]
  change
    (match names.foldl (lookupStep g) (ownerMap g owner cat, r) with
      | (m1, r1) =>
        match names.foldl takeStep ([], m1) with
        | (out, m2) =>
          ((g.mapRange m2).foldl
            (fun (remotes : List Remote) (e : String × Remote) => e.2 :: remotes) out, r1)) = _
  simp only [names, List.foldl_cons, List.foldl_nil, lookupStep_loaded g cat _ r _ h,
    takeStep_eq, delete_names, prepend_fold, filter_addName_names, filterMap_three]
  have h1 : ("github" : String) ≠ "origin" := by decide
  have h2 : ("upstream" : String) ≠ "origin" := by decide
  have h3 : ("upstream" : String) ≠ "github" := by decide
  have h4 : ("origin" : String) ≠ "github" := by decide
  have h5 : ("origin" : String) ≠ "upstream" := by decide
  have h6 : ("github" : String) ≠ "upstream" := by decide
  simp only [get_delete, get_addName, h1, h2, h3, h4, h5, h6, if_true, if_false,
    List.nil_append, List.append_assoc]

theorem remotesForPublish_load (g : Env) (owner : String) (r : GitHubRepo) (cat : List Remote)
    (h : (loadRemotes g r).2.remotes = some cat) :
    remotesForPublish g owner r = remotesForPublish g owner (loadRemotes g r).2 := by
  unfold remotesForPublish
  rw [loadRemotes_queries_loaded g (loadRemotes g r).2 cat h]

theorem ownerMap_no_owner (g : Env) (cat : List Remote) : ownerMap g "" cat = [] := by
  simp [ownerMap]

theorem mem_canonicalRemotes (cat : List Remote) (x : Remote) :
    x ∈ canonicalRemotes cat ↔ ∃ n ∈ names, FirstNamed cat n x := by
  unfold canonicalRemotes
  rw [List.mem_filterMap]
  constructor
  · rintro ⟨n, hn, hf⟩
    exact ⟨n, hn, (find_name_eq_some cat n x).1 hf⟩
  · rintro ⟨n, hn, hf⟩
    exact ⟨n, hn, (find_name_eq_some cat n x).2 hf⟩

/--
C8. Without an owner filter, `remotesForPublish("")` returns exactly the
first remote of each of the names `origin`, `github`, `upstream` that the
catalog has, in that fixed order, and no other remote.
-/
theorem remotesForPublish_no_owner (g : Env) (r : GitHubRepo) (cat : List Remote)
    (hperm : g.RangeVisitsAll) (hload : (loadRemotes g r).2.remotes = some cat) :
    (remotesForPublish g "" r).1 =
        ["origin", "github", "upstream"].filterMap
          (fun n => cat.find? (fun remote => remote.Name == n)) ∧
    (∀ x, x ∈ (remotesForPublish g "" r).1 ↔
        ∃ n ∈ ["origin", "github", "upstream"], FirstNamed cat n x) := by
  have hres : (remotesForPublish g "" r).1 = canonicalRemotes cat := by
    rw [remotesForPublish_load g "" r cat hload,
      remotesForPublish_loaded g "" (loadRemotes g r).2 cat hload, ownerMap_no_owner]
    have hnil : g.mapRange [] = [] := List.Perm.eq_nil (hperm [])
    simp only [List.filter_nil, hnil, List.map_nil, List.reverse_nil, List.nil_append,
      RemoteMap.get, List.lookup_nil, Option.none_or]
    rfl
  refine ⟨hres, ?_⟩
  intro x
  rw [hres]
  exact mem_canonicalRemotes cat x

/--
Witness of `remotesForPublish_no_owner`: for the catalog `origin`, `b` on a
fresh session the result is exactly `origin`.
-/
theorem remotesForPublish_no_owner_witness :
    (remotesForPublish
        (scenario (reports catalogOriginAndB) "refs/heads/master" (.error "unset") [] id)
        "" LocalRepo).1 = [⟨"origin", "github.com/X/hub"⟩] :=
  (remotesForPublish_no_owner
    (scenario (reports catalogOriginAndB) "refs/heads/master" (.error "unset") [] id)
    LocalRepo catalogOriginAndB (fun m => List.Perm.refl m) rfl).1

/-! ## The owner filter on a catalog with distinct names -/

theorem ownerStep_eq (g : Env) (owner : String) (m : RemoteMap) (x : Remote) :
    ownerStep g owner m x = if ownerMatch g owner x then m.set x.Name x else m := by
  unfold ownerStep ownerMatch
  cases g.Project x with
  | error e => simp
  | ok p => by_cases hp : p.Owner = owner <;> simp [hp]

theorem foldl_ownerStep (g : Env) (owner : String) (cat : List Remote) :
    ∀ acc : RemoteMap, (∀ e ∈ acc, ∀ x ∈ cat, e.1 ≠ x.Name) → (cat.map Remote.Name).Nodup →
      cat.foldl (ownerStep g owner) acc = acc ++ entries (cat.filter (ownerMatch g owner)) := by
  induction cat with
  | nil =>
    intro acc _ _
    simp [entries]
  | cons x rest ih =>
    intro acc hacc hnd
    rw [List.map_cons, List.nodup_cons] at hnd
    obtain ⟨hx, hrest⟩ := hnd
    rw [List.foldl_cons, ownerStep_eq]
    by_cases hm : ownerMatch g owner x = true
    · rw [if_pos hm, set_absent acc x.Name x (fun e he => hacc e he x (List.mem_cons_self _ _))]
      rw [ih _ ?_ hrest]
      · simp [entries, List.filter_cons, hm]
      · intro e he y hy
        rcases List.mem_append.1 he with h1 | h1
        · exact hacc e h1 y (List.mem_cons_of_mem _ hy)
        · have he' : e = (x.Name, x) := by simpa using h1
          rw [he']
          intro hxy
          have hxy' : x.Name = y.Name := hxy
          exact hx (by rw [hxy']; exact List.mem_map_of_mem _ hy)
    · rw [if_neg hm, ih acc (fun e he y hy => hacc e he y (List.mem_cons_of_mem _ hy)) hrest]
      simp [List.filter_cons, hm]

theorem ownerMap_nodup (g : Env) (owner : String) (cat : List Remote) (ho : owner ≠ "")
    (hnd : (cat.map Remote.Name).Nodup) :
    ownerMap g owner cat = entries (cat.filter (ownerMatch g owner)) := by
  unfold ownerMap
  rw [if_pos ho, foldl_ownerStep g owner cat [] (fun e he => absurd he (List.not_mem_nil e)) hnd]
  rfl

theorem get_entries (l : List Remote) (n : String) :
    (entries l).get n = l.find? (fun remote => remote.Name == n) := by
  induction l with
  | nil => rfl
  | cons x rest ih =>
    unfold entries RemoteMap.get at ih ⊢
    rw [List.map_cons, lookup_head, ih, List.find?_cons]
    by_cases h : n = x.Name
    · rw [if_pos h]
      have hb : (x.Name == n) = true := by simpa using h.symm
      rw [hb]
    · rw [if_neg h]
      have hb : (x.Name == n) = false := by simpa using fun h' => h h'.symm
      rw [hb]

theorem filter_entries (p : Remote → Bool) (q : String → Bool) (l : List Remote) :
    (entries (l.filter p)).filter (fun e => q e.1) =
      entries (l.filter (fun x => p x && q x.Name)) := by
  unfold entries
  induction l with
  | nil => rfl
  | cons x rest ih =>
    by_cases hp : p x = true
    · by_cases hq : q x.Name = true
      · simp only [List.filter_cons, hp, hq, if_true, List.map_cons, Bool.and_self]
        rw [ih]
      · simp only [List.filter_cons, hp, hq, if_true, List.map_cons, Bool.and_false,
          Bool.false_eq_true, if_false, Bool.true_and]
        rw [ih]
    · simp only [List.filter_cons, hp, Bool.false_eq_true, if_false, Bool.false_and]
      rw [ih]

theorem find_filter_or (cat : List Remote) (p : Remote → Bool) (n : String)
    (hnd : (cat.map Remote.Name).Nodup) :
    ((cat.filter p).find? (fun remote => remote.Name == n)).or
        (cat.find? (fun remote => remote.Name == n)) =
      cat.find? (fun remote => remote.Name == n) := by
  cases hf : (cat.filter p).find? (fun remote => remote.Name == n) with
  | none => rfl
  | some x =>
    have hxn : x.Name = n := by simpa using List.find?_some hf
    have hxmem : x ∈ cat := (List.mem_filter.1 (List.mem_of_find?_eq_some hf)).1
    cases hc : cat.find? (fun remote => remote.Name == n) with
    | none =>
      rw [find_name_eq_none] at hc
      exact absurd ⟨x, hxmem, hxn⟩ hc
    | some y =>
      have hyn : y.Name = n := by simpa using List.find?_some hc
      have hymem : y ∈ cat := List.mem_of_find?_eq_some hc
      have hxy : x = y := List.inj_on_of_nodup_map hnd hxmem hymem (hxn.trans hyn.symm)
      rw [hxy]
      rfl

/--
C1 (counterexample). On the catalog `origin` (owner `A`), `fork1`, `fork2`
(owner `B`), whose names are pairwise distinct, with owner filter `B` and a
map iteration that visits `fork2` before `fork1`, `remotesForPublish` returns
`fork1, fork2, origin`, not `fork2, fork1, origin`.
-/
theorem remotesForPublish_order_depends_on_iteration :
    (scenario (reports catalogTwoForks) "refs/heads/feature" (.error "unset") []
        List.reverse).RangeVisitsAll ∧
    (catalogTwoForks.map Remote.Name).Nodup ∧
    (remotesForPublish
        (scenario (reports catalogTwoForks) "refs/heads/feature" (.error "unset") []
          List.reverse)
        "B" LocalRepo).1 =
      [⟨"fork1", "github.com/B/hub"⟩, ⟨"fork2", "github.com/B/hub"⟩,
       ⟨"origin", "github.com/A/hub"⟩] ∧
    (remotesForPublish
        (scenario (reports catalogTwoForks) "refs/heads/feature" (.error "unset") []
          List.reverse)
        "B" LocalRepo).1 ≠
      [⟨"fork2", "github.com/B/hub"⟩, ⟨"fork1", "github.com/B/hub"⟩,
       ⟨"origin", "github.com/A/hub"⟩] :=
  ⟨fun m => List.reverse_perm m, by decide, by decide, by decide⟩

/--
C1 (amended). For every catalog with pairwise distinct remote names and every
non-empty owner filter, `remotesForPublish(owner)` returns the owner-matched
remotes whose name is not `origin`/`github`/`upstream`, in the reverse of the
order in which the map iteration visits them (a permutation of them, and the
reverse of their catalog order when the iteration follows catalog order),
followed by the canonical remotes present in the catalog in the order
`origin`, `github`, `upstream`.
-/
theorem remotesForPublish_owner (g : Env) (owner : String) (r : GitHubRepo)
    (cat : List Remote) (hperm : g.RangeVisitsAll)
    (hload : (loadRemotes g r).2.remotes = some cat)
    (hnd : (cat.map Remote.Name).Nodup) (ho : owner ≠ "") :
    (remotesForPublish g owner r).1 =
        ((g.mapRange (entries (matchedOthers g owner cat))).map Prod.snd).reverse ++
          canonicalRemotes cat ∧
    (((g.mapRange (entries (matchedOthers g owner cat))).map Prod.snd).reverse).Perm
        (matchedOthers g owner cat) ∧
    (g.mapRange (entries (matchedOthers g owner cat)) = entries (matchedOthers g owner cat) →
      (remotesForPublish g owner r).1 =
        (matchedOthers g owner cat).reverse ++ canonicalRemotes cat) := by
  have hres : (remotesForPublish g owner r).1 =
      ((g.mapRange (entries (matchedOthers g owner cat))).map Prod.snd).reverse ++
        canonicalRemotes cat := by
    rw [remotesForPublish_load g owner r cat hload,
      remotesForPublish_loaded g owner (loadRemotes g r).2 cat hload,
      ownerMap_nodup g owner cat ho hnd,
      filter_entries (ownerMatch g owner) (fun k => !canonical k) cat]
    simp only [get_entries, find_filter_or cat (ownerMatch g owner) _ hnd]
    rfl
  have hsnd : (entries (matchedOthers g owner cat)).map Prod.snd = matchedOthers g owner cat := by
    simp [entries, List.map_map, Function.comp_def]
  refine ⟨hres, ?_, ?_⟩
  · refine (List.reverse_perm _).trans ?_
    have hp := (hperm (entries (matchedOthers g owner cat))).map Prod.snd
    rw [hsnd] at hp
    exact hp
  · intro hid
    rw [hres, hid, hsnd]

/--
Witness of `remotesForPublish_owner`: the catalog `origin`, `fork1`, `fork2`
with owner filter `B` and a map iteration in catalog order gives
`fork2, fork1, origin`.
-/
theorem remotesForPublish_owner_witness :
    (catalogTwoForks.map Remote.Name).Nodup ∧ ("B" : String) ≠ "" ∧
    (remotesForPublish
        (scenario (reports catalogTwoForks) "refs/heads/feature" (.error "unset") [] id)
        "B" LocalRepo).1 =
      [⟨"fork2", "github.com/B/hub"⟩, ⟨"fork1", "github.com/B/hub"⟩,
       ⟨"origin", "github.com/A/hub"⟩] :=
  ⟨by decide, by decide,
   (remotesForPublish_owner
      (scenario (reports catalogTwoForks) "refs/heads/feature" (.error "unset") [] id)
      "B" LocalRepo catalogTwoForks (fun m => List.Perm.refl m) rfl (by decide)
      (by decide)).2.2 rfl⟩

/-! ## The upstream chain -/

theorem CurrentBranch_error (g : Env) (e : Error) (h : g.Head = .error e) :
    CurrentBranch g = (none, some detachedHead) := by
  unfold CurrentBranch
  rw [h]
  rfl

/--
C11. `UpstreamProject` follows the chain current branch, its upstream
branch, the remote named by the upstream's `RemoteName`, that remote's
project, and fails at the first missing link with that link's own error
(detached head, no upstream, remote not found, unparsable project) without
consulting the later links: the session is not even loaded when one of the
first two links fails.  When every link succeeds it returns exactly the
project parsed from the first remote named by the upstream branch.
-/
theorem UpstreamProject_chain (g : Env) (r : GitHubRepo) :
    (∀ e, g.Head = .error e →
        UpstreamProject g r = ((none, some detachedHead), r)) ∧
    (∀ head e, g.Head = .ok head → g.Upstream ⟨head⟩ = .error e →
        UpstreamProject g r = ((none, some e), r)) ∧
    (∀ head up, g.Head = .ok head → g.Upstream ⟨head⟩ = .ok up →
        (¬ ∃ m ∈ (loadRemotes g r).2.catalog, m.Name = g.RemoteName up) →
        UpstreamProject g r =
          ((none, some ("No git remote with name " ++ g.RemoteName up)), (loadRemotes g r).2)) ∧
    (∀ head up m e, g.Head = .ok head → g.Upstream ⟨head⟩ = .ok up →
        FirstNamed (loadRemotes g r).2.catalog (g.RemoteName up) m →
        g.Project m = .error e →
        UpstreamProject g r = ((none, some e), (loadRemotes g r).2)) ∧
    (∀ head up m p, g.Head = .ok head → g.Upstream ⟨head⟩ = .ok up →
        FirstNamed (loadRemotes g r).2.catalog (g.RemoteName up) m →
        g.Project m = .ok p →
        UpstreamProject g r = ((some p, none), (loadRemotes g r).2)) := by
  refine ⟨?_, ?_, ?_, ?_, ?_⟩
  · intro e hH
    unfold UpstreamProject
    rw [CurrentBranch_error g e hH]
  · intro head e hH hU
    unfold UpstreamProject
    rw [CurrentBranch_ok g head hH]
    dsimp only
    rw [hU]
    rfl
  · intro head up hH hU hno
    unfold UpstreamProject
    rw [CurrentBranch_ok g head hH]
    dsimp only
    rw [hU]
    dsimp only [goPair]
    rw [RemoteByName_eq, (find_name_eq_none _ _).2 hno]
  · intro head up m e hH hU hm hP
    unfold UpstreamProject
    rw [CurrentBranch_ok g head hH]
    dsimp only
    rw [hU]
    dsimp only [goPair]
    rw [RemoteByName_eq, (find_name_eq_some _ _ _).2 hm]
    dsimp only
    rw [hP]
  · intro head up m p hH hU hm hP
    unfold UpstreamProject
    rw [CurrentBranch_ok g head hH]
    dsimp only
    rw [hU]
    dsimp only [goPair]
    rw [RemoteByName_eq, (find_name_eq_some _ _ _).2 hm]
    dsimp only
    rw [hP]

/-! ## The default branch -/

theorem MasterBranch_eq (g : Env) (r : GitHubRepo) :
    MasterBranch g r =
      (match (loadRemotes g r).2.catalog.find? (fun remote => remote.Name == "origin") with
        | some origin =>
          ⟨if goString (g.BranchAtRef ["refs", "remotes", origin.Name, "HEAD"]) = "" then
            "refs/heads/master"
          else goString (g.BranchAtRef ["refs", "remotes", origin.Name, "HEAD"])⟩
        | none => ⟨"refs/heads/master"⟩,
       (loadRemotes g r).2) := by
  unfold MasterBranch
  rw [RemoteByName_eq]
  cases (loadRemotes g r).2.catalog.find? (fun remote => remote.Name == "origin") with
  | none => rfl
  | some origin => rfl

/--
C12. `MasterBranch` always returns a branch (it has no error result): the
ref `refs/heads/master` when the catalog has no remote named `origin`, or
when the lookup of `refs/remotes/origin/HEAD` fails or yields the empty name;
otherwise exactly the ref string that lookup resolved to.
-/
theorem MasterBranch_default (g : Env) (r : GitHubRepo) :
    ((¬ ∃ m ∈ (loadRemotes g r).2.catalog, m.Name = "origin") →
        (MasterBranch g r).1 = ⟨"refs/heads/master"⟩) ∧
    (∀ e, (∃ m ∈ (loadRemotes g r).2.catalog, m.Name = "origin") →
        g.BranchAtRef ["refs", "remotes", "origin", "HEAD"] = .error e →
        (MasterBranch g r).1 = ⟨"refs/heads/master"⟩) ∧
    ((∃ m ∈ (loadRemotes g r).2.catalog, m.Name = "origin") →
        g.BranchAtRef ["refs", "remotes", "origin", "HEAD"] = .ok "" →
        (MasterBranch g r).1 = ⟨"refs/heads/master"⟩) ∧
    (∀ name, (∃ m ∈ (loadRemotes g r).2.catalog, m.Name = "origin") →
        g.BranchAtRef ["refs", "remotes", "origin", "HEAD"] = .ok name → name ≠ "" →
        (MasterBranch g r).1 = ⟨name⟩) := by
  rw [MasterBranch_eq]
  cases hf : (loadRemotes g r).2.catalog.find? (fun remote => remote.Name == "origin") with
  | none =>
    have hno := (find_name_eq_none _ _).1 hf
    refine ⟨fun _ => rfl, ?_, ?_, ?_⟩
    · intro e hex
      exact absurd hex hno
    · intro hex
      exact absurd hex hno
    · intro name hex
      exact absurd hex hno
  | some origin =>
    have ho : origin.Name = "origin" := by simpa using List.find?_some hf
    dsimp only
    rw [ho]
    refine ⟨?_, ?_, ?_, ?_⟩
    · intro hno
      exact absurd ⟨origin, List.mem_of_find?_eq_some hf, ho⟩ hno
    · intro e _ hB
      rw [hB]
      simp [goString]
    · intro _ hB
      rw [hB]
      simp [goString]
    · intro name _ hB hname
      rw [hB]
      simp only [goString, hname, if_false]

/-! ## Failure of the enumeration -/

/--
C15. If the backend enumeration fails on an unloaded session, `loadRemotes`
returns that backend error and leaves the stored remote list as it was
(unloaded); the next `loadRemotes` call queries the backend again and, when
that query succeeds, stores the list it reports.
-/
theorem loadRemotes_retry (g : Env) (r : GitHubRepo) (e : Error)
    (remotes : Option (List Remote))
    (hr : r.remotes = none)
    (he : g.Remotes r.queries = .error e)
    (hok : g.Remotes (r.queries + 1) = .ok remotes) :
    (loadRemotes g r).1 = some e ∧
    (loadRemotes g r).2.remotes = r.remotes ∧
    (loadRemotes g r).2.queries = r.queries + 1 ∧
    loadRemotes g (loadRemotes g r).2 = (none, ⟨remotes, r.queries + 2⟩) := by
  have h1 : loadRemotes g r = (some e, ⟨none, r.queries + 1⟩) := by
    unfold loadRemotes
    rw [hr]
    dsimp only
    rw [he]
  rw [h1]
  refine ⟨rfl, hr.symm, rfl, ?_⟩
  unfold loadRemotes
  dsimp only
  rw [hok]

/--
Witness of `loadRemotes_retry`: a fresh session on a backend that fails once
and then reports `origin`, `fork`.
-/
theorem loadRemotes_retry_witness :
    (loadRemotes
        (scenario (failsThenReports catalogWithFork) "refs/heads/master" (.error "unset") [] id)
        LocalRepo).1 = some "Can't load git remote" ∧
    loadRemotes
        (scenario (failsThenReports catalogWithFork) "refs/heads/master" (.error "unset") [] id)
        (loadRemotes
          (scenario (failsThenReports catalogWithFork) "refs/heads/master" (.error "unset") []
            id)
          LocalRepo).2 = (none, ⟨some catalogWithFork, 2⟩) :=
  ⟨(loadRemotes_retry
      (scenario (failsThenReports catalogWithFork) "refs/heads/master" (.error "unset") [] id)
      LocalRepo "Can't load git remote" (some catalogWithFork) rfl rfl rfl).1,
   (loadRemotes_retry
      (scenario (failsThenReports catalogWithFork) "refs/heads/master" (.error "unset") [] id)
      LocalRepo "Can't load git remote" (some catalogWithFork) rfl rfl rfl).2.2.2⟩

/-! ## Publish target: early exits -/

/--
C16. `RemoteBranchAndProject` exits early.  If `MainProject` fails, the call
returns the error of `MainProject` (and no branch), whatever HEAD, the
push-default value and the owner filter are; if `MainProject` succeeds but
HEAD is not on a branch, the call returns the detached-head error, whatever
the push-default value and the owner filter are.
-/
theorem RemoteBranchAndProject_early_exit (g : Env) (owner : String) (r : GitHubRepo) :
    (∀ e, (MainProject g r).1.2 = some e →
        RemoteBranchAndProject g owner r =
          ((none, (MainProject g r).1.1, some e), (MainProject g r).2) ∧
        e = noOriginProject) ∧
    (∀ p r1 e, MainProject g r = ((some p, none), r1) → g.Head = .error e →
        RemoteBranchAndProject g owner r = ((none, some p, some detachedHead), r1)) := by
  refine ⟨?_, ?_⟩
  · intro e he
    refine ⟨?_, ?_⟩
    · unfold RemoteBranchAndProject
      rcases hM : MainProject g r with ⟨⟨p0, e0⟩, r0⟩
      rw [hM] at he
      cases e0 with
      | none => exact absurd he (by simp)
      | some e1 =>
        have : e1 = e := Option.some.inj he
        subst this
        rfl
    · rcases MainProject_error g r with h | h
      · rw [h] at he
        exact absurd he (by simp)
      · rw [h] at he
        exact (Option.some.inj he).symm
  · intro p r1 e hM hH
    unfold RemoteBranchAndProject
    rw [hM]
    dsimp only
    rw [CurrentBranch_error g e hH]

/-! ## Publish target: a tracking ref without its remote -/

/--
C13. In `RemoteBranchAndProject`, if the branch left by the push-default step
is a remote-tracking ref but no remote of the catalog is named
`branch.RemoteName()`, the call succeeds and returns that branch together
with the project `MainProject` returned.
-/
theorem RemoteBranchAndProject_missing_remote (g : Env) (owner : String)
    (r r1 r2 : GitHubRepo) (p : Project) (b0 b : Branch)
    (hM : MainProject g r = ((some p, none), r1))
    (hB : CurrentBranch g = (some b0, none))
    (hS : pushDefaultStep g owner b0 r1 = ((some b, none), r2))
    (hR : g.IsRemote b = true)
    (hN : ¬ ∃ m ∈ (loadRemotes g r2).2.catalog, m.Name = g.RemoteName b) :
    RemoteBranchAndProject g owner r = ((some b, some p, none), (loadRemotes g r2).2) := by
  unfold RemoteBranchAndProject
  rw [hM]
  dsimp only
  rw [hB]
  dsimp only
  rw [hS]
  dsimp only
  unfold overrideStep
  rw [if_pos hR, RemoteByName_eq, (find_name_eq_none _ _).2 hN]

/--
Witness of `RemoteBranchAndProject_missing_remote`: push-default `upstream`,
the current branch tracks `refs/remotes/gone/feature`, and the catalog
(`origin`, `fork`) has no remote `gone`.
-/
theorem RemoteBranchAndProject_missing_remote_witness :
    RemoteBranchAndProject
        (scenarioWithUpstream (reports catalogWithFork) "refs/heads/feature" (.ok "upstream")
          "refs/remotes/gone/feature")
        "" LocalRepo =
      ((some ⟨"refs/remotes/gone/feature"⟩, some ⟨"hub", "A", "github.com"⟩, none),
       ⟨some catalogWithFork, 1⟩) :=
  RemoteBranchAndProject_missing_remote
    (scenarioWithUpstream (reports catalogWithFork) "refs/heads/feature" (.ok "upstream")
      "refs/remotes/gone/feature")
    "" LocalRepo ⟨some catalogWithFork, 1⟩ ⟨some catalogWithFork, 1⟩
    ⟨"hub", "A", "github.com"⟩ ⟨"refs/heads/feature"⟩ ⟨"refs/remotes/gone/feature"⟩
    (by decide) rfl (by decide) (by decide) (by decide)

/-! ## Publish target: tracking mode ignores the owner filter -/

/--
C19. When the push-default value is `upstream` or `tracking`, the result of
`RemoteBranchAndProject(owner)` (branch, project, error and session) is the
same for every owner filter: on one repository state any two owner arguments
give equal results.
-/
theorem RemoteBranchAndProject_tracking_owner (g : Env) (owner1 owner2 : String)
    (r : GitHubRepo)
    (hD : goString (g.Config "push.default") = "upstream" ∨
      goString (g.Config "push.default") = "tracking") :
    RemoteBranchAndProject g owner1 r = RemoteBranchAndProject g owner2 r := by
  unfold RemoteBranchAndProject
  simp only [pushDefaultStep_tracking g _ _ _ hD]

/--
Witness of `RemoteBranchAndProject_tracking_owner`: push-default `upstream`
with the current branch tracking `refs/remotes/fork/feature`; the owner
filters `A` and `B` give the same result, the project of `fork`.
-/
theorem RemoteBranchAndProject_tracking_owner_witness :
    RemoteBranchAndProject
        (scenarioWithUpstream (reports catalogWithFork) "refs/heads/feature" (.ok "upstream")
          "refs/remotes/fork/feature")
        "A" LocalRepo =
      ((some ⟨"refs/remotes/fork/feature"⟩, some ⟨"hub", "B", "github.com"⟩, none),
       ⟨some catalogWithFork, 1⟩) ∧
    RemoteBranchAndProject
        (scenarioWithUpstream (reports catalogWithFork) "refs/heads/feature" (.ok "upstream")
          "refs/remotes/fork/feature")
        "A" LocalRepo =
      RemoteBranchAndProject
        (scenarioWithUpstream (reports catalogWithFork) "refs/heads/feature" (.ok "upstream")
          "refs/remotes/fork/feature")
        "B" LocalRepo :=
  ⟨by decide,
   RemoteBranchAndProject_tracking_owner
    (scenarioWithUpstream (reports catalogWithFork) "refs/heads/feature" (.ok "upstream")
      "refs/remotes/fork/feature")
    "A" "B" LocalRepo (Or.inl (by decide))⟩

/-! ## Immutability of a loaded catalog -/

theorem MainProject_loaded (g : Env) (r : GitHubRepo) (cat : List Remote)
    (h : r.remotes = some cat) : (MainProject g r).2 = r := by
  rw [MainProject_eq, loadRemotes_queries_loaded g r cat h]

theorem UpstreamProject_loaded (g : Env) (r : GitHubRepo) (cat : List Remote)
    (h : r.remotes = some cat) : (UpstreamProject g r).2 = r := by
  unfold UpstreamProject
  simp only [RemoteByName_eq, loadRemotes_queries_loaded g r cat h]
  split
  · split
    · split <;> rename_i heq <;> exact (congrArg Prod.snd heq).symm
    · rfl
  · rfl

theorem CurrentProject_loaded (g : Env) (r : GitHubRepo) (cat : List Remote)
    (h : r.remotes = some cat) : (CurrentProject g r).2 = r := by
  have hu := UpstreamProject_loaded g r cat h
  unfold CurrentProject
  rcases hU : UpstreamProject g r with ⟨⟨p0, e0⟩, r0⟩
  rw [hU] at hu
  have hr0 : r0 = r := hu
  subst hr0
  cases e0 with
  | none => rfl
  | some e => exact MainProject_loaded g r0 cat h

theorem overrideStep_loaded (g : Env) (b : Branch) (p : Option Project) (r : GitHubRepo)
    (cat : List Remote) (h : r.remotes = some cat) : (overrideStep g b p r).2 = r := by
  unfold overrideStep
  simp only [RemoteByName_eq, loadRemotes_queries_loaded g r cat h]
  split
  · split <;> rename_i heq <;> exact (congrArg Prod.snd heq).symm
  · rfl

theorem pushDefaultStep_loaded (g : Env) (owner : String) (b : Branch) (r : GitHubRepo)
    (cat : List Remote) (h : r.remotes = some cat) : (pushDefaultStep g owner b r).2 = r := by
  unfold pushDefaultStep
  simp only [remotesForPublish_loaded g owner r cat h]
  split <;> rfl

theorem RemoteBranchAndProject_loaded (g : Env) (owner : String) (r : GitHubRepo)
    (cat : List Remote) (h : r.remotes = some cat) :
    (RemoteBranchAndProject g owner r).2 = r := by
  have hm := MainProject_loaded g r cat h
  unfold RemoteBranchAndProject
  rcases hM : MainProject g r with ⟨⟨p0, e0⟩, r0⟩
  rw [hM] at hm
  have hr0 : r0 = r := hm
  subst hr0
  cases e0 with
  | some e => rfl
  | none =>
    dsimp only
    rcases hC : CurrentBranch g with ⟨b0, e1⟩
    cases b0 with
    | none => rfl
    | some b =>
      cases e1 with
      | some e => rfl
      | none =>
        dsimp only
        have hp := pushDefaultStep_loaded g owner b r0 cat h
        rcases hS : pushDefaultStep g owner b r0 with ⟨⟨b1, e2⟩, r2⟩
        rw [hS] at hp
        have hr2 : r2 = r0 := hp
        subst hr2
        cases b1 with
        | none => rfl
        | some b2 =>
          cases e2 with
          | some e => rfl
          | none => exact overrideStep_loaded g b2 p0 r2 cat h

/--
Immutability of a non-nil catalog: once the session stores a non-nil remote
list, every operation leaves the session (stored list and query count) as it
is, whatever the backend would report.
-/
theorem loaded_session_immutable (g : Env) (owner name : String) (r : GitHubRepo)
    (cat : List Remote) (h : r.remotes = some cat) :
    (loadRemotes g r).2 = r ∧ (RemoteByName g name r).2 = r ∧
    (remotesForPublish g owner r).2 = r ∧ (MasterBranch g r).2 = r ∧
    (MainProject g r).2 = r ∧ (CurrentProject g r).2 = r ∧
    (UpstreamProject g r).2 = r ∧ (RemoteBranchAndProject g owner r).2 = r := by
  refine ⟨loadRemotes_queries_loaded g r cat h, ?_, ?_, ?_, MainProject_loaded g r cat h,
    CurrentProject_loaded g r cat h, UpstreamProject_loaded g r cat h,
    RemoteBranchAndProject_loaded g owner r cat h⟩
  · rw [RemoteByName_eq, loadRemotes_queries_loaded g r cat h]
  · rw [remotesForPublish_loaded g owner r cat h]
  · rw [MasterBranch_eq, loadRemotes_queries_loaded g r cat h]

/--
C17 (code at the failing input). On a backend that first reports no remote
(the `nil` slice, no error) and later reports `origin`, `fork`, the first
`loadRemotes` succeeds and stores the empty list, and the following
`RemoteByName` call replaces the stored list by the two remotes of the second
enumeration.
-/
theorem RemoteByName_reloads_after_empty_load :
    (loadRemotes
        (scenario (noneThenReports catalogWithFork) "refs/heads/master" (.error "unset") [] id)
        LocalRepo).1 = none ∧
    (loadRemotes
        (scenario (noneThenReports catalogWithFork) "refs/heads/master" (.error "unset") [] id)
        LocalRepo).2.catalog = [] ∧
    (RemoteByName
        (scenario (noneThenReports catalogWithFork) "refs/heads/master" (.error "unset") [] id)
        "origin"
        (loadRemotes
          (scenario (noneThenReports catalogWithFork) "refs/heads/master" (.error "unset") []
            id)
          LocalRepo).2).2.catalog = catalogWithFork := by
  decide

/-! ## Invariants of the owner map on an arbitrary catalog -/

theorem mem_set (m : RemoteMap) (k : String) (v : Remote) (e : String × Remote)
    (h : e ∈ m.set k v) : e = (k, v) ∨ e ∈ m := by
  induction m with
  | nil =>
    left
    simpa [RemoteMap.set] using h
  | cons a rest ih =>
    obtain ⟨a1, a2⟩ := a
    unfold RemoteMap.set at h
    by_cases hak : a1 = k
    · rw [if_pos hak] at h
      rcases List.mem_cons.1 h with h1 | h1
      · exact Or.inl h1
      · exact Or.inr (List.mem_cons_of_mem _ h1)
    · rw [if_neg hak] at h
      rcases List.mem_cons.1 h with h1 | h1
      · right
        rw [h1]
        exact List.mem_cons_self _ _
      · rcases ih h1 with h2 | h2
        · exact Or.inl h2
        · exact Or.inr (List.mem_cons_of_mem _ h2)

theorem mem_keys_iff (m : RemoteMap) (k : String) :
    k ∈ m.map Prod.fst ↔ (m.get k).isSome = true := by
  induction m with
  | nil => simp [RemoteMap.get]
  | cons a rest ih =>
    obtain ⟨a1, a2⟩ := a
    unfold RemoteMap.get at ih ⊢
    rw [lookup_head, List.map_cons, List.mem_cons]
    by_cases h : k = a1
    · simp [h]
    · rw [if_neg h, ← ih]
      simp [h]

theorem keys_set (m : RemoteMap) (k : String) (v : Remote) :
    (m.set k v).map Prod.fst =
      if k ∈ m.map Prod.fst then m.map Prod.fst else m.map Prod.fst ++ [k] := by
  induction m with
  | nil => simp [RemoteMap.set]
  | cons a rest ih =>
    obtain ⟨a1, a2⟩ := a
    unfold RemoteMap.set
    by_cases hak : a1 = k
    · subst hak
      simp
    · rw [if_neg hak, List.map_cons, ih]
      have hka : ¬ k = a1 := fun h => hak h.symm
      by_cases hmem : k ∈ rest.map Prod.fst
      · simp [hmem]
      · simp [hmem, hka]

theorem nodup_keys_set (m : RemoteMap) (k : String) (v : Remote)
    (h : (m.map Prod.fst).Nodup) : ((m.set k v).map Prod.fst).Nodup := by
  rw [keys_set]
  by_cases hmem : k ∈ m.map Prod.fst
  · rw [if_pos hmem]
    exact h
  · rw [if_neg hmem]
    rw [List.nodup_append]
    refine ⟨h, List.nodup_singleton k, ?_⟩
    intro a ha hk
    have : a = k := by simpa using hk
    rw [this] at ha
    exact hmem ha

theorem get_mem (m : RemoteMap) (k : String) (v : Remote) (h : m.get k = some v) :
    (k, v) ∈ m := by
  induction m with
  | nil => simp [RemoteMap.get] at h
  | cons a rest ih =>
    obtain ⟨a1, a2⟩ := a
    unfold RemoteMap.get at h ih
    rw [lookup_head] at h
    by_cases hk : k = a1
    · rw [if_pos hk] at h
      have : a2 = v := Option.some.inj h
      rw [hk, this]
      exact List.mem_cons_self _ _
    · rw [if_neg hk] at h
      exact List.mem_cons_of_mem _ (ih h)

theorem ownerMatch_iff (g : Env) (owner : String) (x : Remote) :
    ownerMatch g owner x = true ↔ ∃ p, g.Project x = .ok p ∧ p.Owner = owner := by
  unfold ownerMatch
  cases g.Project x with
  | error e => simp
  | ok p => simp

theorem foldl_ownerStep_entries (g : Env) (owner : String) (cat : List Remote) :
    ∀ (l : List Remote) (acc : RemoteMap), (∀ x ∈ l, x ∈ cat) →
      (∀ e ∈ acc, OwnerEntry g owner cat e) →
      ∀ e ∈ l.foldl (ownerStep g owner) acc, OwnerEntry g owner cat e := by
  intro l
  induction l with
  | nil =>
    intro acc _ hacc
    exact hacc
  | cons x rest ih =>
    intro acc hl hacc
    rw [List.foldl_cons]
    apply ih _ (fun y hy => hl y (List.mem_cons_of_mem _ hy))
    intro e he
    rw [ownerStep_eq] at he
    by_cases hm : ownerMatch g owner x = true
    · rw [if_pos hm] at he
      rcases mem_set acc x.Name x e he with h1 | h1
      · rw [h1]
        exact ⟨rfl, hl x (List.mem_cons_self _ _), hm⟩
      · exact hacc e h1
    · rw [if_neg hm] at he
      exact hacc e he

theorem foldl_ownerStep_nodup (g : Env) (owner : String) :
    ∀ (l : List Remote) (acc : RemoteMap), (acc.map Prod.fst).Nodup →
      ((l.foldl (ownerStep g owner) acc).map Prod.fst).Nodup := by
  intro l
  induction l with
  | nil =>
    intro acc hacc
    exact hacc
  | cons x rest ih =>
    intro acc hacc
    rw [List.foldl_cons]
    apply ih
    rw [ownerStep_eq]
    by_cases hm : ownerMatch g owner x = true
    · rw [if_pos hm]
      exact nodup_keys_set acc x.Name x hacc
    · rw [if_neg hm]
      exact hacc

theorem foldl_ownerStep_get (g : Env) (owner n : String) :
    ∀ (l : List Remote) (acc : RemoteMap),
      ((l.foldl (ownerStep g owner) acc).get n).isSome = true ↔
        (acc.get n).isSome = true ∨ ∃ x ∈ l, x.Name = n ∧ ownerMatch g owner x = true := by
  intro l
  induction l with
  | nil =>
    intro acc
    simp
  | cons x rest ih =>
    intro acc
    rw [List.foldl_cons, ih, ownerStep_eq]
    by_cases hm : ownerMatch g owner x = true
    · rw [if_pos hm, get_set]
      by_cases hn : n = x.Name
      · rw [if_pos hn]
        constructor
        · intro _
          exact Or.inr ⟨x, List.mem_cons_self _ _, hn.symm, hm⟩
        · intro _
          exact Or.inl rfl
      · rw [if_neg hn]
        constructor
        · rintro (h | ⟨y, hy, hyn, hym⟩)
          · exact Or.inl h
          · exact Or.inr ⟨y, List.mem_cons_of_mem _ hy, hyn, hym⟩
        · rintro (h | ⟨y, hy, hyn, hym⟩)
          · exact Or.inl h
          · rcases List.mem_cons.1 hy with h1 | h1
            · rw [h1] at hyn
              exact absurd hyn.symm hn
            · exact Or.inr ⟨y, h1, hyn, hym⟩
    · rw [if_neg hm]
      constructor
      · rintro (h | ⟨y, hy, hyn, hym⟩)
        · exact Or.inl h
        · exact Or.inr ⟨y, List.mem_cons_of_mem _ hy, hyn, hym⟩
      · rintro (h | ⟨y, hy, hyn, hym⟩)
        · exact Or.inl h
        · rcases List.mem_cons.1 hy with h1 | h1
          · rw [h1] at hym
            exact absurd hym hm
          · exact Or.inr ⟨y, h1, hyn, hym⟩

theorem ownerMap_entries (g : Env) (owner : String) (cat : List Remote) :
    ∀ e ∈ ownerMap g owner cat, OwnerEntry g owner cat e := by
  unfold ownerMap
  by_cases ho : owner ≠ ""
  · rw [if_pos ho]
    exact foldl_ownerStep_entries g owner cat cat [] (fun x hx => hx)
      (fun e he => absurd he (List.not_mem_nil e))
  · rw [if_neg ho]
    intro e he
    exact absurd he (List.not_mem_nil e)

theorem ownerMap_keys_nodup (g : Env) (owner : String) (cat : List Remote) :
    ((ownerMap g owner cat).map Prod.fst).Nodup := by
  unfold ownerMap
  by_cases ho : owner ≠ ""
  · rw [if_pos ho]
    exact foldl_ownerStep_nodup g owner cat [] List.nodup_nil
  · rw [if_neg ho]
    exact List.nodup_nil

theorem ownerMap_get_isSome (g : Env) (owner : String) (cat : List Remote) (n : String) :
    ((ownerMap g owner cat).get n).isSome = true ↔
      owner ≠ "" ∧ ∃ x ∈ cat, x.Name = n ∧ ownerMatch g owner x = true := by
  unfold ownerMap
  by_cases ho : owner ≠ ""
  · rw [if_pos ho, foldl_ownerStep_get]
    simp [RemoteMap.get, ho]
  · rw [if_neg ho]
    simp [RemoteMap.get, ho]

/-! ## Shape of the candidate list on an arbitrary catalog -/

theorem remotesForPublish_shape (g : Env) (owner : String) (r : GitHubRepo)
    (cat : List Remote) (hload : (loadRemotes g r).2.remotes = some cat) :
    (remotesForPublish g owner r).1 =
      ((g.mapRange (leftover g owner cat)).map Prod.snd).reverse ++
        names.filterMap (canonicalPick g owner cat) := by
  rw [remotesForPublish_load g owner r cat hload,
    remotesForPublish_loaded g owner (loadRemotes g r).2 cat hload]
  rfl

theorem canonicalPick_name (g : Env) (owner : String) (cat : List Remote) (n : String)
    (x : Remote) (h : canonicalPick g owner cat n = some x) : x.Name = n := by
  unfold canonicalPick at h
  cases hg : (ownerMap g owner cat).get n with
  | some y =>
    rw [hg] at h
    have hxy : y = x := by simpa using h
    have hmem := get_mem _ _ _ hg
    have := (ownerMap_entries g owner cat (n, y) hmem).1
    rw [← hxy]
    exact this.symm
  | none =>
    rw [hg] at h
    have hf : cat.find? (fun remote => remote.Name == n) = some x := by simpa using h
    simpa using List.find?_some hf

theorem leftover_entry (g : Env) (owner : String) (cat : List Remote) (e : String × Remote)
    (h : e ∈ leftover g owner cat) :
    OwnerEntry g owner cat e ∧ canonical e.1 = false := by
  unfold leftover at h
  rw [List.mem_filter] at h
  exact ⟨ownerMap_entries g owner cat e h.1, by simpa using h.2⟩

/--
C14. For every catalog and every owner filter, the output of
`remotesForPublish` is a block of remotes whose names are not
`origin`/`github`/`upstream` followed by a block of canonical remotes, so
every non-canonical remote precedes every canonical one; the canonical block
lists, in the order `origin`, `github`, `upstream`, one remote of that name
for each canonical name it contains.  This holds whatever order the leftover
map is iterated in.
-/
theorem remotesForPublish_canonical_last (g : Env) (owner : String) (r : GitHubRepo)
    (cat : List Remote) (hperm : g.RangeVisitsAll)
    (hload : (loadRemotes g r).2.remotes = some cat) :
    ∃ pre post, (remotesForPublish g owner r).1 = pre ++ post ∧
      (∀ x ∈ pre, canonical x.Name = false) ∧
      (∀ x ∈ post, canonical x.Name = true) ∧
      ∃ pick : String → Option Remote,
        post = ["origin", "github", "upstream"].filterMap pick ∧
        ∀ n x, pick n = some x → x.Name = n := by
  refine ⟨((g.mapRange (leftover g owner cat)).map Prod.snd).reverse,
    names.filterMap (canonicalPick g owner cat),
    remotesForPublish_shape g owner r cat hload, ?_, ?_, canonicalPick g owner cat, rfl,
    canonicalPick_name g owner cat⟩
  · intro x hx
    rw [List.mem_reverse, List.mem_map] at hx
    obtain ⟨e, he, hex⟩ := hx
    have hmem : e ∈ leftover g owner cat := ((hperm _).mem_iff).1 he
    obtain ⟨hentry, hcanon⟩ := leftover_entry g owner cat e hmem
    rw [← hex, ← hentry.1]
    exact hcanon
  · intro x hx
    rw [List.mem_filterMap] at hx
    obtain ⟨n, hn, hpick⟩ := hx
    rw [canonicalPick_name g owner cat n x hpick]
    unfold canonical
    simpa using hn

/--
Witness of `remotesForPublish_canonical_last`: on the catalog `upstream`,
`fork`, `origin` with owner filter `B` and a reversing map iteration the
output is `fork`, `origin`, `upstream`.
-/
theorem remotesForPublish_canonical_last_witness :
    (remotesForPublish
        (scenario (reports catalogOneFork) "refs/heads/master" (.error "unset") []
          List.reverse)
        "B" LocalRepo).1 =
      [⟨"fork", "github.com/B/hub"⟩, ⟨"origin", "github.com/A/hub"⟩,
       ⟨"upstream", "github.com/A/hub"⟩] ∧
    ∃ pre post,
      (remotesForPublish
        (scenario (reports catalogOneFork) "refs/heads/master" (.error "unset") []
          List.reverse)
        "B" LocalRepo).1 = pre ++ post ∧
      (∀ x ∈ pre, canonical x.Name = false) ∧
      (∀ x ∈ post, canonical x.Name = true) ∧
      ∃ pick : String → Option Remote,
        post = ["origin", "github", "upstream"].filterMap pick ∧
        ∀ n x, pick n = some x → x.Name = n :=
  ⟨by decide,
   remotesForPublish_canonical_last
    (scenario (reports catalogOneFork) "refs/heads/master" (.error "unset") [] List.reverse)
    "B" LocalRepo catalogOneFork (fun m => List.reverse_perm m) rfl⟩

/-! ## Names of the candidate list on an arbitrary catalog -/

theorem names_of_entries (L : RemoteMap) (h : ∀ e ∈ L, e.1 = e.2.Name) :
    ((L.map Prod.snd).reverse).map Remote.Name = (L.map Prod.fst).reverse := by
  rw [List.map_reverse, List.map_map]
  congr 1
  apply List.map_congr_left
  intro e he
  exact (h e he).symm

theorem names_of_picks (pick : String → Option Remote)
    (h : ∀ n x, pick n = some x → x.Name = n) (l : List String) :
    (l.filterMap pick).map Remote.Name = l.filter (fun n => (pick n).isSome) := by
  induction l with
  | nil => rfl
  | cons n rest ih =>
    cases hp : pick n with
    | none =>
      rw [List.filterMap_cons_none hp, ih]
      simp [List.filter_cons, hp]
    | some x =>
      rw [List.filterMap_cons_some hp, List.map_cons, ih, h n x hp]
      simp [List.filter_cons, hp]

theorem keys_leftover (g : Env) (owner : String) (cat : List Remote) :
    (leftover g owner cat).map Prod.fst =
      ((ownerMap g owner cat).map Prod.fst).filter (fun k => !canonical k) := by
  unfold leftover
  rw [List.filter_map]
  rfl

theorem canonicalPick_isSome (g : Env) (owner : String) (cat : List Remote) (n : String) :
    (canonicalPick g owner cat n).isSome = true ↔
      ((ownerMap g owner cat).get n).isSome = true ∨ ∃ x ∈ cat, x.Name = n := by
  unfold canonicalPick
  cases hg : (ownerMap g owner cat).get n with
  | some y => simp
  | none => simp

theorem remotesForPublish_names_eq (g : Env) (owner : String) (r : GitHubRepo)
    (cat : List Remote) (hperm : g.RangeVisitsAll)
    (hload : (loadRemotes g r).2.remotes = some cat) :
    (remotesForPublish g owner r).1.map Remote.Name =
      ((g.mapRange (leftover g owner cat)).map Prod.fst).reverse ++
        names.filter (fun n => (canonicalPick g owner cat n).isSome) := by
  rw [remotesForPublish_shape g owner r cat hload, List.map_append,
    names_of_picks _ (canonicalPick_name g owner cat), names_of_entries]
  intro e he
  exact (leftover_entry g owner cat e (((hperm _).mem_iff).1 he)).1.1

/--
C18. For every catalog and owner filter, a name occurs among the remotes
returned by `remotesForPublish(owner)` iff it is one of
`origin`/`github`/`upstream` and some catalog remote has that name, or the
owner filter is non-empty and some catalog remote of that name has a locator
that parses to a project owned by `owner`; no name occurs twice.  The routine
has no error result: remotes that do not parse and canonical names that do
not resolve simply contribute nothing.
-/
theorem remotesForPublish_names (g : Env) (owner : String) (r : GitHubRepo)
    (cat : List Remote) (hperm : g.RangeVisitsAll)
    (hload : (loadRemotes g r).2.remotes = some cat) :
    (∀ n, n ∈ (remotesForPublish g owner r).1.map Remote.Name ↔
      (n ∈ ["origin", "github", "upstream"] ∧ ∃ x ∈ cat, x.Name = n) ∨
      (owner ≠ "" ∧ ∃ x ∈ cat, x.Name = n ∧ ∃ p, g.Project x = .ok p ∧ p.Owner = owner)) ∧
    ((remotesForPublish g owner r).1.map Remote.Name).Nodup := by
  rw [remotesForPublish_names_eq g owner r cat hperm hload]
  have hkeys : ∀ n, n ∈ ((g.mapRange (leftover g owner cat)).map Prod.fst).reverse ↔
      (owner ≠ "" ∧ ∃ x ∈ cat, x.Name = n ∧ ownerMatch g owner x = true) ∧
        canonical n = false := by
    intro n
    rw [List.mem_reverse, ((hperm (leftover g owner cat)).map Prod.fst).mem_iff,
      keys_leftover, List.mem_filter, mem_keys_iff, ownerMap_get_isSome]
    simp
  have hcanon : ∀ n, n ∈ names.filter (fun n => (canonicalPick g owner cat n).isSome) ↔
      canonical n = true ∧
        ((owner ≠ "" ∧ ∃ x ∈ cat, x.Name = n ∧ ownerMatch g owner x = true) ∨
          ∃ x ∈ cat, x.Name = n) := by
    intro n
    rw [List.mem_filter, canonicalPick_isSome, ownerMap_get_isSome]
    simp [canonical]
  refine ⟨?_, ?_⟩
  · intro n
    rw [List.mem_append, hkeys, hcanon]
    have hn : n ∈ ["origin", "github", "upstream"] ↔ canonical n = true := by
      simp [canonical, names]
    rw [hn]
    simp only [ownerMatch_iff]
    constructor
    · rintro (⟨hm, -⟩ | ⟨hc, hm | he⟩)
      · exact Or.inr hm
      · exact Or.inr hm
      · exact Or.inl ⟨hc, he⟩
    · rintro (⟨hc, he⟩ | hm)
      · exact Or.inr ⟨hc, Or.inr he⟩
      · by_cases hc : canonical n = true
        · exact Or.inr ⟨hc, Or.inl hm⟩
        · exact Or.inl ⟨hm, by simpa using hc⟩
  · rw [List.nodup_append]
    refine ⟨?_, ?_, ?_⟩
    · rw [List.nodup_reverse,
        (((hperm (leftover g owner cat)).map Prod.fst).nodup_iff), keys_leftover]
      exact (ownerMap_keys_nodup g owner cat).filter _
    · exact List.Nodup.filter _ (by decide)
    · intro a ha hb
      have h1 := ((hkeys a).1 ha).2
      have h2 := ((hcanon a).1 hb).1
      rw [h1] at h2
      exact Bool.noConfusion h2

/--
Witness of `remotesForPublish_names`: on the catalog `upstream`, `fork`,
`origin` with owner filter `B` the returned names are `fork`, `origin`,
`upstream`, each once.
-/
theorem remotesForPublish_names_witness :
    (remotesForPublish
        (scenario (reports catalogOneFork) "refs/heads/master" (.error "unset") [] id)
        "B" LocalRepo).1.map Remote.Name = ["fork", "origin", "upstream"] ∧
    ((remotesForPublish
        (scenario (reports catalogOneFork) "refs/heads/master" (.error "unset") [] id)
        "B" LocalRepo).1.map Remote.Name).Nodup :=
  ⟨by decide,
   (remotesForPublish_names
    (scenario (reports catalogOneFork) "refs/heads/master" (.error "unset") [] id)
    "B" LocalRepo catalogOneFork (fun m => List.Perm.refl m) rfl).2⟩

/-! ## Independence from the map iteration order -/

theorem length_le_one_of_all_eq (l : List String) (hnd : l.Nodup)
    (h : ∀ a ∈ l, ∀ b ∈ l, a = b) : l.length ≤ 1 := by
  match l, hnd, h with
  | [], _, _ => simp
  | [_], _, _ => simp
  | a :: b :: rest, hnd, h =>
    have hab : a = b :=
      h a (List.mem_cons_self _ _) b (List.mem_cons_of_mem _ (List.mem_cons_self _ _))
    rw [List.nodup_cons] at hnd
    exact absurd (by rw [hab]; exact List.mem_cons_self _ _) hnd.1

theorem perm_eq_of_length_le_one (l l' : RemoteMap) (hlen : l.length ≤ 1)
    (hp : l'.Perm l) : l' = l := by
  match l, hlen, hp with
  | [], _, hp => exact hp.eq_nil
  | [e], _, hp => exact hp.eq_singleton
  | _ :: _ :: _, hlen, _ => simp at hlen

theorem leftover_length (g : Env) (owner : String) (cat : List Remote)
    (hone : ∀ x ∈ cat, ∀ y ∈ cat, ownerMatch g owner x = true → ownerMatch g owner y = true →
      canonical x.Name = false → canonical y.Name = false → x.Name = y.Name) :
    (leftover g owner cat).length ≤ 1 := by
  have hnd : ((leftover g owner cat).map Prod.fst).Nodup := by
    rw [keys_leftover]
    exact (ownerMap_keys_nodup g owner cat).filter _
  have hall : ∀ a ∈ (leftover g owner cat).map Prod.fst,
      ∀ b ∈ (leftover g owner cat).map Prod.fst, a = b := by
    intro a ha b hb
    rw [List.mem_map] at ha hb
    obtain ⟨e, he, hea⟩ := ha
    obtain ⟨f, hf, hfb⟩ := hb
    obtain ⟨⟨he1, he2, he3⟩, he4⟩ := leftover_entry g owner cat e he
    obtain ⟨⟨hf1, hf2, hf3⟩, hf4⟩ := leftover_entry g owner cat f hf
    rw [← hea, ← hfb, he1, hf1]
    rw [he1] at he4
    rw [hf1] at hf4
    exact hone e.2 he2 f.2 hf2 he3 hf3 he4 hf4
  have := length_le_one_of_all_eq _ hnd hall
  simpa using this

theorem RemoteBranchAndProject_congr (g g' : Env) (owner : String) (r : GitHubRepo)
    (hMP : MainProject g' r = MainProject g r)
    (hCB : CurrentBranch g' = CurrentBranch g)
    (hPD : ∀ b, pushDefaultStep g' owner b (MainProject g r).2 =
      pushDefaultStep g owner b (MainProject g r).2)
    (hOV : ∀ b p r', overrideStep g' b p r' = overrideStep g b p r') :
    RemoteBranchAndProject g' owner r = RemoteBranchAndProject g owner r := by
  unfold RemoteBranchAndProject
  rw [hMP, hCB]
  rcases hM : MainProject g r with ⟨⟨p0, e0⟩, r0⟩
  rw [hM] at hPD
  have hPD' : ∀ b, pushDefaultStep g' owner b r0 = pushDefaultStep g owner b r0 := hPD
  cases e0 with
  | some e => rfl
  | none =>
    dsimp only
    simp only [hPD', hOV]

theorem scanRemotes_mapRange (g : Env) (order : RemoteMap → RemoteMap) (shortName : String)
    (b : Branch) (l : List Remote) :
    scanRemotes { g with mapRange := order } shortName l b = scanRemotes g shortName l b := by
  induction l with
  | nil => rfl
  | cons x rest ih =>
    simp only [scanRemotes, ih]

/--
C20. For a fixed catalog and owner filter, if at most one owner-matched
remote name lies outside `origin`/`github`/`upstream`, the output of
`remotesForPublish` is the same under every iteration order of the leftover
map, and so is the result of `RemoteBranchAndProject`, hence the candidate it
chooses.
-/
theorem remotesForPublish_order_irrelevant (g : Env) (order : RemoteMap → RemoteMap)
    (owner : String) (r : GitHubRepo) (cat : List Remote)
    (hperm : g.RangeVisitsAll) (horder : ∀ m : RemoteMap, (order m).Perm m)
    (hload : (loadRemotes g r).2.remotes = some cat)
    (hone : ∀ x ∈ cat, ∀ y ∈ cat, ownerMatch g owner x = true → ownerMatch g owner y = true →
      canonical x.Name = false → canonical y.Name = false → x.Name = y.Name) :
    remotesForPublish { g with mapRange := order } owner r = remotesForPublish g owner r ∧
    RemoteBranchAndProject { g with mapRange := order } owner r =
      RemoteBranchAndProject g owner r := by
  have hlen : (leftover g owner cat).length ≤ 1 := leftover_length g owner cat hone
  have hrfp : ∀ r' : GitHubRepo, (loadRemotes g r').2.remotes = some cat →
      remotesForPublish { g with mapRange := order } owner r' =
        remotesForPublish g owner r' := by
    intro r' hr'
    have hr2 : (loadRemotes { g with mapRange := order } r').2.remotes = some cat := hr'
    rw [remotesForPublish_load { g with mapRange := order } owner r' cat hr2,
      remotesForPublish_loaded { g with mapRange := order } owner _ cat hr2,
      remotesForPublish_load g owner r' cat hr',
      remotesForPublish_loaded g owner _ cat hr']
    have h1 : order (leftover g owner cat) = leftover g owner cat :=
      perm_eq_of_length_le_one _ _ hlen (horder _)
    have h2 : g.mapRange (leftover g owner cat) = leftover g owner cat :=
      perm_eq_of_length_le_one _ _ hlen (hperm _)
    unfold leftover at h1 h2
    show ((List.map Prod.snd
        (order (List.filter (fun e => !canonical e.1) (ownerMap g owner cat)))).reverse ++ _,
        (loadRemotes g r').2) = _
    rw [h1, h2]
    rfl
  refine ⟨hrfp r hload, ?_⟩
  apply RemoteBranchAndProject_congr g { g with mapRange := order } owner r rfl rfl
  · intro b
    have hstate : (loadRemotes g (MainProject g r).2).2.remotes = some cat := by
      rw [MainProject_eq]
      rw [loadRemotes_queries_loaded g (loadRemotes g r).2 cat hload]
      exact hload
    simp only [pushDefaultStep, hrfp _ hstate, scanRemotes_mapRange]
  · intro b p r'
    rfl

/--
Witness of `remotesForPublish_order_irrelevant`: on the catalog `upstream`,
`fork`, `origin` with owner filter `B`, only `fork` is an owner match outside
the canonical names; a reversing map iteration gives the same result as one
in insertion order.
-/
theorem remotesForPublish_order_irrelevant_witness :
    RemoteBranchAndProject
        { scenario (reports catalogOneFork) "refs/heads/feature" (.error "unset")
            [["refs", "remotes", "fork", "feature"]] id with mapRange := List.reverse }
        "B" LocalRepo =
      RemoteBranchAndProject
        (scenario (reports catalogOneFork) "refs/heads/feature" (.error "unset")
          [["refs", "remotes", "fork", "feature"]] id)
        "B" LocalRepo :=
  (remotesForPublish_order_irrelevant
    (scenario (reports catalogOneFork) "refs/heads/feature" (.error "unset")
      [["refs", "remotes", "fork", "feature"]] id)
    List.reverse "B" LocalRepo catalogOneFork (fun m => List.Perm.refl m)
    (fun m => List.reverse_perm m) rfl (by decide)).2

end Hub
